import Mathlib

/-!
Verification development for the metadata-change-app repository.

The development shallowly embeds the Python modules the specification
describes:

* `src/modules/metadata_handler.py` — validation and the metadata write
  path (`validate_metadata`, `update_metadata` and the three per-section
  write helpers);
* `src/modules/database.py` — the SQLite-backed usage store
  (`save_metadata_value`, `get_field_suggestions`, `get_all_suggestions`,
  `save_user_preference`, `get_user_preference`), modelled as pure
  functions over an explicit table state;
* `src/modules/learning_engine.py` — the learning/suggestion engine
  (`learn_from_metadata`, `_update_field_patterns`, `get_suggestions`,
  `_get_contextual_suggestions`, `_analyze_metadata_patterns`,
  `get_popular_values`).

Python dynamic values are embedded as `PValue` (string / int / bool —
the scalar field values the data model admits); Python dicts are
embedded as association lists in insertion order, with first-match
lookup (Python dict keys are unique, so first-match lookup agrees with
dict lookup on every state reachable from the code).  Timestamps are
embedded as `Nat` (SQLite `CURRENT_TIMESTAMP` strings are ISO-formatted
and compare chronologically as strings, so a monotone `Nat` encoding
preserves every comparison the code performs).  Filesystem facts
(`os.path.exists`, the path suffix) are passed as explicit arguments.
-/

/-- An apostrophe, used when the source builds messages such as
`Section 'EXIF' must be a dictionary`. -/
def apos : String := (Char.ofNat 39).toString

/-- Embedding of the Python scalar values a metadata field may hold
(the data model admits strings, numbers and booleans). -/
inductive PValue where
  | pstr (s : String)
  | pint (n : Int)
  | pbool (b : Bool)
deriving DecidableEq, Repr

/-- Python truthiness of a `PValue` (`if field_value:`). -/
def truthy : PValue → Bool
  | .pstr s => s ≠ ""
  | .pint n => n ≠ 0
  | .pbool b => b

/-- The minus-sign character. -/
def minusC : Char := Char.ofNat 45

/-- The character of one decimal digit. -/
def digitChar (d : Nat) : Char :=
  match d with
  | 0 => '0' | 1 => '1' | 2 => '2' | 3 => '3' | 4 => '4'
  | 5 => '5' | 6 => '6' | 7 => '7' | 8 => '8' | _ => '9'

/-- Decimal digits of a natural number, most significant first; the
first argument is recursion fuel (any fuel above the digit count,
in particular `n + 1`, is enough). -/
def natDigitsFuel : Nat → Nat → List Char
  | 0, _ => []
  | fuel + 1, n =>
    if n < 10 then [digitChar n]
    else natDigitsFuel fuel (n / 10) ++ [digitChar (n % 10)]

/-- Decimal digits of a natural number. -/
def natDigits (n : Nat) : List Char := natDigitsFuel (n + 1) n

/-- Decimal rendering of an integer (the text `str(n)` /
`json.dumps(n)` produce). -/
def intChars (n : Int) : List Char :=
  if n < 0 then minusC :: natDigits n.natAbs else natDigits n.toNat

/-- Python decimal rendering `str(n)` of an integer. -/
def decimalStr (n : Int) : String := String.mk (intChars n)

/-- Python `str()` of a `PValue`. -/
def pyStr : PValue → String
  | .pstr s => s
  | .pint n => decimalStr n
  | .pbool b => if b then "True" else "False"

/-- The value of one section of a metadata record: either a mapping
from field names to scalar values, or a raw non-mapping value (the
structurally invalid case the validator and the learning code test
with `isinstance(fields, dict)`). -/
inductive SectionVal where
  | map (fields : List (String × PValue))
  | raw (v : PValue)
deriving DecidableEq

/-- A metadata record: a mapping from section names to section values,
in insertion order. -/
abbrev MetaRecord := List (String × SectionVal)

/-- Python substring membership `pat in s`. -/
def containsSub (s pat : String) : Bool :=
  s.data.tails.any (fun t => pat.data.isPrefixOf t)

/-- The whitespace characters Python `str.strip()` removes. -/
def pyWs (c : Char) : Bool :=
  c = ' ' || c = '\t' || c = '\n' || c = '\r' ||
  c = Char.ofNat 11 || c = Char.ofNat 12

/-- Model of Python `str.strip()`: leading and trailing whitespace
removed. -/
def stripStr (s : String) : String :=
  String.mk (((s.data.dropWhile pyWs).reverse.dropWhile pyWs).reverse)

/-- ASCII lowercasing of one character (model of Python
`str.lower()`, which the code only applies to ASCII data). -/
def toLowerChar (c : Char) : Char :=
  if 65 ≤ c.toNat ∧ c.toNat ≤ 90 then Char.ofNat (c.toNat + 32) else c

/-- Model of Python `str.lower()`. -/
def lowerStr (s : String) : String :=
  String.mk (s.data.map toLowerChar)

/-! ## metadata_handler.py -/

/-- Default supported image formats (`MetadataHandler.__init__`). -/
def supported_formats : List String :=
  [".jpg", ".jpeg", ".png", ".tiff", ".tif", ".bmp", ".webp"]

/-- The error list accumulated by the loop body of
`MetadataHandler.validate_metadata` (source lines 260-273).  Field
names are strings in the embedding, so the `isinstance(field_name, str)`
branch of the source never fires; the remaining checks are: a
non-mapping section appends `Section '<name>' must be a dictionary`
and skips the section, and a field name that is empty after `strip()`
appends `Field name in '<section>' cannot be empty`. -/
def validate_metadata_errors (metadata : MetaRecord) : List String :=
  metadata.foldl (fun errors sf =>
    match sf.2 with
    | .raw _ =>
        errors ++ ["Section " ++ apos ++ sf.1 ++ apos ++ " must be a dictionary"]
    | .map fields =>
        errors ++ fields.foldl (fun es fv =>
          if stripStr fv.1 = "" then
            es ++ ["Field name in " ++ apos ++ sf.1 ++ apos ++ " cannot be empty"]
          else es) []) []

/-- Embedding of `MetadataHandler.validate_metadata` itself.  The
source function accumulates the `errors` list but contains no `return`
statement, so the Python function falls off its end and returns `None`
for every input; the computed list is discarded.  The embedding
returns `none` accordingly (`some errors` would be the value of a
`return errors` the source does not contain). -/
def validate_metadata (_metadata : MetaRecord) : Option (List String) :=
  none

/-- Embedding of `MetadataHandler._update_exif_data`: the source is a
stub that logs and returns `True` without touching the file. -/
def update_exif_data (_image_path : String) (_exif_data : SectionVal) : Bool :=
  true

/-- Embedding of `MetadataHandler._update_iptc_data`: stub, returns
`True` without touching the file. -/
def update_iptc_data (_image_path : String) (_iptc_data : SectionVal) : Bool :=
  true

/-- Embedding of `MetadataHandler._update_xmp_data`: stub, returns
`True` without touching the file. -/
def update_xmp_data (_image_path : String) (_xmp_data : SectionVal) : Bool :=
  true

/-- Embedding of `MetadataHandler.update_metadata`, generalized over
the three per-section write paths (the specification treats them as an
opaque codec dependency; the concrete source stubs are obtained by
instantiating all three with the stubs above, see
`update_metadata_eq_gen`).  `file_exists` embeds `os.path.exists`
(when false the source raises `FileNotFoundError`, catches it and
returns `False`); `file_ext` embeds `Path(image_path).suffix`.  The
second component of the result is the trace of sections whose write
path was invoked, in source order.  Note `success &= ...` in Python
always evaluates its right-hand side, so every present section is
attempted regardless of earlier failures. -/
def update_metadata_gen (we wi wx : String → SectionVal → Bool)
    (file_exists : Bool) (image_path file_ext : String)
    (new_metadata : MetaRecord) : Bool × List String :=
  if !file_exists then (false, [])
  else if !(supported_formats.contains (lowerStr file_ext)) then (false, [])
  else
    let (s1, a1) :=
      match new_metadata.lookup "EXIF" with
      | some d => (we image_path d, ["EXIF"])
      | none => (true, [])
    let (s2, a2) :=
      match new_metadata.lookup "IPTC" with
      | some d => (wi image_path d, ["IPTC"])
      | none => (true, [])
    let (s3, a3) :=
      match new_metadata.lookup "XMP" with
      | some d => (wx image_path d, ["XMP"])
      | none => (true, [])
    (s1 && s2 && s3, a1 ++ a2 ++ a3)

/-- Embedding of `MetadataHandler.update_metadata` as the source has
it: the three write paths are the stubs. -/
def update_metadata (file_exists : Bool) (image_path file_ext : String)
    (new_metadata : MetaRecord) : Bool :=
  (update_metadata_gen update_exif_data update_iptc_data update_xmp_data
    file_exists image_path file_ext new_metadata).1

/-! ## database.py — metadata_learning table -/

/-- One row of the `metadata_learning` table.  Row order in the list
is table order (ascending autoincrement id): updates happen in place,
inserts append. -/
structure MLRow where
  field_name : String
  field_value : String
  usage_count : Nat
  last_used : Nat
deriving DecidableEq, Repr

/-- Embedding of `Database.save_metadata_value` at time `now`: the
`SELECT` finds the first row with the given (field, value) pair; if
present its `usage_count` is incremented and `last_used` set to now,
otherwise a fresh row with count 1 is inserted. -/
def save_metadata_value (now : Nat) (f v : String) :
    List MLRow → List MLRow
  | [] => [⟨f, v, 1, now⟩]
  | r :: rs =>
    if r.field_name = f ∧ r.field_value = v then
      { r with usage_count := r.usage_count + 1, last_used := now } :: rs
    else
      r :: save_metadata_value now f v rs

/-- A suggestion entry as returned by the store query functions. -/
structure Sugg where
  value : String
  usage_count : Nat
  last_used : Nat
deriving DecidableEq, Repr

/-- Descending lexicographic order on (usage_count, last_used) keys:
`descLex p q` holds when `p` may precede `q`. -/
def descLex (p q : Nat × Nat) : Prop :=
  q.1 < p.1 ∨ (q.1 = p.1 ∧ q.2 ≤ p.2)

instance : DecidableRel descLex := fun p q => by
  unfold descLex; infer_instance

/-- Ordering relation used for `ORDER BY usage_count DESC, last_used
DESC` on table rows. -/
def rowRel (a b : MLRow) : Prop :=
  descLex (a.usage_count, a.last_used) (b.usage_count, b.last_used)

instance : DecidableRel rowRel := fun a b => by
  unfold rowRel; infer_instance

instance : IsTotal MLRow rowRel :=
  ⟨fun a b => by unfold rowRel descLex; omega⟩

instance : IsTrans MLRow rowRel :=
  ⟨fun a b c => by unfold rowRel descLex; omega⟩

/-- Embedding of `Database.get_field_suggestions`: rows of the field,
ordered by usage count descending with last-used descending as
tie-break, truncated to `limit`, projected to suggestion entries. -/
def get_field_suggestions (db : List MLRow) (f : String) (limit : Nat) :
    List Sugg :=
  ((db.filter (fun r => r.field_name = f)).insertionSort rowRel).take limit
    |>.map (fun r => ⟨r.field_value, r.usage_count, r.last_used⟩)

/-- Lexicographic comparison of character lists by code point (the
byte-wise text ordering SQLite applies to `ORDER BY field_name`). -/
def charListLe : List Char → List Char → Bool
  | [], _ => true
  | _ :: _, [] => false
  | c :: cs, d :: ds =>
    if c.toNat < d.toNat then true
    else if d.toNat < c.toNat then false
    else charListLe cs ds

/-- Ascending order on field names, used for `ORDER BY field_name`. -/
def strRel (a b : String) : Prop := charListLe a.data b.data = true

instance : DecidableRel strRel := fun a b => by
  unfold strRel; infer_instance

instance : IsTotal String strRel := by
  constructor
  suffices h : ∀ xs ys, charListLe xs ys = true ∨ charListLe ys xs = true by
    intro a b; exact h a.data b.data
  intro xs
  induction xs with
  | nil => intro ys; left; rfl
  | cons c cs ih =>
    intro ys
    cases ys with
    | nil => right; rfl
    | cons d ds =>
      by_cases h1 : c.toNat < d.toNat
      · left; simp [charListLe, h1]
      · by_cases h2 : d.toNat < c.toNat
        · right; simp [charListLe, h2]
        · rcases ih ds with h | h
          · left; simp [charListLe, h1, h2, h]
          · right; simp [charListLe, h1, h2, h]

instance : IsTrans String strRel := by
  constructor
  suffices h : ∀ xs ys zs, charListLe xs ys = true →
      charListLe ys zs = true → charListLe xs zs = true by
    intro a b c hab hbc; exact h a.data b.data c.data hab hbc
  intro xs
  induction xs with
  | nil => intro ys zs _ _; rfl
  | cons c cs ih =>
    intro ys zs h1 h2
    cases ys with
    | nil => simp [charListLe] at h1
    | cons d ds =>
      cases zs with
      | nil => simp [charListLe] at h2
      | cons e es =>
        simp only [charListLe] at h1 h2 ⊢
        split_ifs at h1 h2 ⊢ <;>
          first
          | rfl
          | omega
          | exact ih ds es h1 h2

/-- Embedding of `Database.get_all_suggestions`: all rows ordered by
field name ascending, then usage count and last-used descending,
grouped by field name. -/
def get_all_suggestions (db : List MLRow) : List (String × List Sugg) :=
  ((db.map (fun r => r.field_name)).dedup.insertionSort strRel).map
    (fun f => (f, ((db.filter (fun r => r.field_name = f)).insertionSort
      rowRel).map (fun r => ⟨r.field_value, r.usage_count, r.last_used⟩)))

/-! ## learning_engine.py -/

/-- Location keyword list of `_update_field_patterns`. -/
def location_keywords : List String :=
  ["street", "avenue", "road", "lane", "city", "country", "state"]

/-- Name keyword list of `_update_field_patterns`. -/
def name_keywords : List String :=
  ["mr", "mrs", "ms", "dr", "prof"]

/-- Embedding of `LearningEngine._update_field_patterns` restricted to
the pattern tags it computes for one value: the value is stringified,
lowercased and trimmed, and each of the four rules is tested
independently; matching tags are appended in source order. -/
def update_field_patterns (field_value : PValue) : List String :=
  let value_str := stripStr (lowerStr (pyStr field_value))
  (if containsSub value_str "@" && containsSub value_str "." then
    ["email"] else []) ++
  (if value_str.data.any Char.isDigit && decide (8 ≤ value_str.length) then
    ["date"] else []) ++
  (if location_keywords.any (fun kw => containsSub value_str kw) then
    ["location"] else []) ++
  (if name_keywords.any (fun kw => containsSub value_str kw) then
    ["name"] else [])

/-- The guard of `learn_from_metadata`'s recording branch: the source
tests `field_value and str(field_value).strip()`, i.e. the value is
Python-truthy and its string form is not blank after stripping. -/
def learnGuard (fv : String × PValue) : Bool :=
  truthy fv.2 && !(stripStr (pyStr fv.2) == "")

/-- The fields `LearningEngine.learn_from_metadata` records: every
field of every mapping section whose value passes `learnGuard`,
paired with its string form, in iteration order.  Non-mapping
sections are skipped by the `isinstance(fields, dict)` check. -/
def recordedFields (metadata : MetaRecord) : List (String × String) :=
  metadata.flatMap (fun sf =>
    match sf.2 with
    | .raw _ => []
    | .map fields =>
        (fields.filter learnGuard).map (fun fv => (fv.1, pyStr fv.2)))

/-- The (field, tag) pattern entries `learn_from_metadata` appends to
the in-memory tag history, in iteration order. -/
def learnedTags (metadata : MetaRecord) : List (String × String) :=
  metadata.flatMap (fun sf =>
    match sf.2 with
    | .raw _ => []
    | .map fields =>
        (fields.filter learnGuard).flatMap
          (fun fv => (update_field_patterns fv.2).map (fun t => (fv.1, t))))

/-- The per-field body of `learn_from_metadata`'s loop: when the guard
passes, the store call is issued (its boolean result discarded) and
the (field, string value) pair is appended to the call trace. -/
def learnStep {σ : Type} (record_value : σ → String → String → σ × Bool)
    (acc : σ × List (String × String)) (fv : String × PValue) :
    σ × List (String × String) :=
  if learnGuard fv then
    ((record_value acc.1 fv.1 (pyStr fv.2)).1,
      acc.2 ++ [(fv.1, pyStr fv.2)])
  else acc

/-- Embedding of `LearningEngine.learn_from_metadata` over an abstract
usage store: `σ` is the store state and `record_value` embeds
`Database.save_metadata_value` including its boolean result (`false`
is the storage-failure sentinel).  The result is the boolean the
function returns, the final store state, and the trace of
`record_value` calls.  The source ignores the boolean returned by each
store call, and the store never raises (it catches internally and
returns `False`), so the `except` branch of the source that returns
`False` is unreachable and the function returns `True`. -/
def learn_from_metadata {σ : Type} (record_value : σ → String → String → σ × Bool)
    (metadata : MetaRecord) (s0 : σ) : Bool × σ × List (String × String) :=
  let a := metadata.foldl (fun acc sf =>
    match sf.2 with
    | .raw _ => acc
    | .map fields => fields.foldl (learnStep record_value) acc) (s0, [])
  (true, a.1, a.2)

/-- Field-name lists of `_analyze_metadata_patterns`. -/
def camera_field_names : List String :=
  ["Make", "Model", "Software", "ExposureTime", "FNumber"]

/-- GPS field-name list of `_analyze_metadata_patterns`. -/
def location_field_names : List String :=
  ["GPSLatitude", "GPSLongitude", "GPSAltitude"]

/-- Author field-name list of `_analyze_metadata_patterns`. -/
def author_field_names : List String :=
  ["Artist", "Copyright", "ByLine"]

/-- The per-field body of `_analyze_metadata_patterns`: a field with a
Python-truthy value appends its name to each pattern list whose
field-name set it belongs to. -/
def analyzeFieldStep (acc : List String × List String × List String × List String)
    (fv : String × PValue) :
    List String × List String × List String × List String :=
  if !(truthy fv.2) then acc
  else
    ((if camera_field_names.contains fv.1 then acc.1 ++ [fv.1] else acc.1),
     (if location_field_names.contains fv.1 then acc.2.1 ++ [fv.1]
      else acc.2.1),
     (if author_field_names.contains fv.1 then acc.2.2.1 ++ [fv.1]
      else acc.2.2.1),
     (if containsSub fv.1 "Date" || containsSub fv.1 "Time" then
       acc.2.2.2 ++ [fv.1] else acc.2.2.2))

/-- The per-section body of `_analyze_metadata_patterns`: non-mapping
sections are skipped by the `isinstance(fields, dict)` check. -/
def analyzeSectionStep
    (acc : List String × List String × List String × List String)
    (sf : String × SectionVal) :
    List String × List String × List String × List String :=
  match sf.2 with
  | .raw _ => acc
  | .map fields => fields.foldl analyzeFieldStep acc

/-- Embedding of `LearningEngine._analyze_metadata_patterns`: walks
every mapping section (non-mapping sections are skipped), every field
with a Python-truthy value, and collects the field name into the
camera / location / author / date pattern lists it belongs to.  The
four components are `patterns['camera_info']`,
`patterns['location_info']`, `patterns['author_info']` and
`patterns['date_info']`. -/
def analyze_metadata_patterns (metadata : MetaRecord) :
    List String × List String × List String × List String :=
  metadata.foldl analyzeSectionStep ([], [], [], [])

/-- The names, drawn from a fixed name set, of the truthy-valued
fields of one section. -/
def namesOfFields (names : List String)
    (fields : List (String × PValue)) : List String :=
  (fields.filter (fun fv =>
    truthy fv.2 && names.contains fv.1)).map (fun fv => fv.1)

/-- The names, drawn from a fixed name set, of the truthy-valued
fields of the mapping sections of a record (one pattern list of
`_analyze_metadata_patterns`). -/
def namesOf (names : List String) (m : MetaRecord) : List String :=
  m.flatMap (fun sf =>
    match sf.2 with
    | .raw _ => []
    | .map fields => namesOfFields names fields)

/-- Python membership test `key not in x` where `x` is the value of
`current_metadata.get('EXIF', {})`: on a dict it is key absence, on a
string it is negated substring containment, and on an int or bool it
raises `TypeError` (embedded as `none`). -/
def notInSection (key : String) : SectionVal → Option Bool
  | .map fields => some (fields.lookup key).isNone
  | .raw (.pstr s) => some (!containsSub s key)
  | .raw (.pint _) => none
  | .raw (.pbool _) => none

/-- The camera branch of `_get_contextual_suggestions`: when the
pattern list holds `Make`, the source evaluates
`'Model' not in current_metadata.get('EXIF', {})` (which may raise,
embedded as `none`) and, when that holds, queries the store for
`Model` with limit 3, keeping the entry when non-empty. -/
def contextual_camera (db : List MLRow) (cam : List String)
    (ex : SectionVal) : Option (List (String × List Sugg)) :=
  if cam.contains "Make" then
    match notInSection "Model" ex with
    | none => none
    | some b =>
      if b then
        some (if (get_field_suggestions db "Model" 3).isEmpty then []
          else [("Model", get_field_suggestions db "Model" 3)])
      else some []
  else some []

/-- The location branch of `_get_contextual_suggestions`: when the
pattern list holds both GPS coordinates, the store is queried for
`Location` with limit 3 (no membership test, so no raise). -/
def contextual_location (db : List MLRow) (loc : List String) :
    List (String × List Sugg) :=
  if loc.contains "GPSLatitude" && loc.contains "GPSLongitude" then
    if (get_field_suggestions db "Location" 3).isEmpty then []
    else [("Location", get_field_suggestions db "Location" 3)]
  else []

/-- The author branch of `_get_contextual_suggestions`: when the
pattern list holds `Artist`, the source evaluates
`'Copyright' not in current_metadata.get('EXIF', {})` and, when that
holds, queries the store for `Copyright` with limit 3. -/
def contextual_author (db : List MLRow) (auth : List String)
    (ex : SectionVal) : Option (List (String × List Sugg)) :=
  if auth.contains "Artist" then
    match notInSection "Copyright" ex with
    | none => none
    | some b =>
      if b then
        some (if (get_field_suggestions db "Copyright" 3).isEmpty then []
          else [("Copyright", get_field_suggestions db "Copyright" 3)])
      else some []
  else some []

/-- Core of `LearningEngine._get_contextual_suggestions`: returns
`none` when the Python body raises (a `TypeError` from a membership
test on a non-string, non-dict EXIF section value), otherwise the
contextual entries.  The branches are keyed by distinct suggestion
names and every raise discards the whole map, so emitting the entries
in camera / location / author order is extensionally faithful to the
source's pattern-dict iteration order. -/
def contextual_core (db : List MLRow) (m : MetaRecord) :
    Option (List (String × List Sugg)) :=
  let pats := analyze_metadata_patterns m
  let ex := (m.lookup "EXIF").getD (SectionVal.map [])
  do
    let e1 ← contextual_camera db pats.1 ex
    let e2 := contextual_location db pats.2.1
    let e3 ← contextual_author db pats.2.2.1 ex
    pure (e1 ++ e2 ++ e3)

/-- Embedding of `LearningEngine._get_contextual_suggestions`: the
`except` clause turns any raise into the empty map. -/
def get_contextual_suggestions (db : List MLRow) (m : MetaRecord) :
    List (String × List Sugg) :=
  (contextual_core db m).getD []

/-- Python dict insertion `d[k] = v` on an association list: replaces
the value of an existing key in place, otherwise appends. -/
def dictInsert (k : String) (v : α) :
    List (String × α) → List (String × α)
  | [] => [(k, v)]
  | p :: ps => if p.1 = k then (k, v) :: ps else p :: dictInsert k v ps

/-- Python `base.update(upd)` on association lists. -/
def dictUpdate (base upd : List (String × α)) : List (String × α) :=
  upd.foldl (fun b p => dictInsert p.1 p.2 b) base

/-- The per-field half of `LearningEngine.get_suggestions`: for every
field of every mapping section whose value passes the guard
`field_value and str(field_value).strip()`, query the store with
limit 5 and keep the entry when the query is non-empty.  The source
stores entries in a dict keyed by field name. -/
def per_field_suggestions (db : List MLRow) (m : MetaRecord) :
    List (String × List Sugg) :=
  m.foldl (fun acc sf =>
    match sf.2 with
    | .raw _ => acc
    | .map fields =>
        fields.foldl (fun acc fv =>
          if truthy fv.2 && !(stripStr (pyStr fv.2) == "") then
            let s := get_field_suggestions db fv.1 5
            if s.isEmpty then acc else dictInsert fv.1 s acc
          else acc) acc) []

/-- Embedding of `LearningEngine.get_suggestions`: the per-field
suggestion dict updated with the contextual suggestions (contextual
entries overwrite same-named keys). -/
def get_suggestions (db : List MLRow) (m : MetaRecord) :
    List (String × List Sugg) :=
  dictUpdate (per_field_suggestions db m) (get_contextual_suggestions db m)

/-- One flattened entry of `get_popular_values`. -/
structure PopRow where
  field : String
  value : String
  usage_count : Nat
  last_used : Nat
deriving DecidableEq, Repr

/-- Ordering used by `all_values.sort(key=..., reverse=True)`:
descending on the (usage_count, last_used) pair. -/
def popRel (a b : PopRow) : Prop :=
  descLex (a.usage_count, a.last_used) (b.usage_count, b.last_used)

instance : DecidableRel popRel := fun a b => by
  unfold popRel; infer_instance

instance : IsTotal PopRow popRel :=
  ⟨fun a b => by unfold popRel descLex; omega⟩

instance : IsTrans PopRow popRel :=
  ⟨fun a b c => by unfold popRel descLex; omega⟩

/-- The flattening step of `LearningEngine.get_popular_values`: every
suggestion of every field of `get_all_suggestions`, tagged with its
field name, in grouped order. -/
def flattenAll (db : List MLRow) : List PopRow :=
  (get_all_suggestions db).flatMap (fun fs =>
    fs.2.map (fun s => ⟨fs.1, s.value, s.usage_count, s.last_used⟩))

/-- Embedding of `LearningEngine.get_popular_values`: flatten all
suggestions, sort by (usage_count, last_used) descending, truncate to
`limit`. -/
def get_popular_values (db : List MLRow) (limit : Nat) : List PopRow :=
  ((flattenAll db).insertionSort popRel).take limit

/-! ## database.py — user_preferences table and the JSON codec

`save_user_preference` stores `json.dumps(value)` for dicts and lists
and `str(value)` otherwise; `get_user_preference` tries `json.loads`
on the stored text and falls back to the raw text.  The JSON payloads
are embedded as `J`; the codec is modelled with a serializer `dumpsC`
and a fuel-indexed recursive-descent parser `loads`.  The model is
integer-valued (`J` has no float constructor), so `loads` is a sound
partial decoder rather than a total model of `json.loads`: wherever
it succeeds, `json.loads` succeeds with the same value.  Concretely,
its number tokens follow the scanner's integer grammar `0|[1-9][0-9]*`
(a leading zero cannot be followed by further digits, and a fraction
or exponent continuation makes a later expectation of the grammar
fail, so a document holding a float fails the parse as a whole); its
strings decode exactly the eight single-character escapes of the
decoder's backslash table, reject raw characters below 0x20 as the
strict mode does, and decline `\uXXXX` escapes and therefore any
document using them; its literals and its whitespace characters are
the scanner's.  The documents on which `loads` declines but
`json.loads` may not are covered from the other side by the
recognizer `scalarJsonDoc`, which accepts exactly the texts free of
the two container-opening characters that `json.loads` accepts —
floats, `\uXXXX` escapes and the non-standard `NaN` / `Infinity` /
`-Infinity` constants included — so that its rejection of a
bracket-free text certifies a `json.JSONDecodeError` and hence the
raw-text fallback.  As everywhere in this development, resource
limits of the CPython runtime are idealized: the codec model, like
the unbounded `Int`, does not model the interpreter recursion limit
that pathologically deep nesting would hit. -/

/-- A JSON-serializable Python payload. -/
inductive J where
  | null
  | jbool (b : Bool)
  | num (n : Int)
  | jstr (s : String)
  | arr (elems : List J)
  | obj (members : List (String × J))

/-- The double-quote character. -/
def quoteC : Char := Char.ofNat 34

/-- The backslash character. -/
def backC : Char := Char.ofNat 92

/-- The opening-brace character. -/
def lbraceC : Char := Char.ofNat 123

/-- The closing-brace character. -/
def rbraceC : Char := Char.ofNat 125

/-- Numeric value of a digit list (most significant first). -/
def digitsToNat (ds : List Char) : Nat :=
  ds.foldl (fun n c => 10 * n + (c.toNat - 48)) 0

/-- Serialized form of one string character (quote and backslash are
escaped). -/
def escChar (c : Char) : List Char :=
  if c = quoteC ∨ c = backC then [backC, c] else [c]

/-- Serialized body of a JSON string (without the surrounding
quotes). -/
def escBody (cs : List Char) : List Char := cs.flatMap escChar

/-- Serialized form of a JSON string, quotes included. -/
def escStr (s : String) : List Char := quoteC :: escBody s.data ++ [quoteC]

mutual

/-- Serializer modelling `json.dumps` (default separators: `", "`
between items, `": "` after keys). -/
def dumpsC : J → List Char
  | .null => 'n' :: 'u' :: 'l' :: 'l' :: []
  | .jbool true => 't' :: 'r' :: 'u' :: 'e' :: []
  | .jbool false => 'f' :: 'a' :: 'l' :: 's' :: 'e' :: []
  | .num n => intChars n
  | .jstr s => escStr s
  | .arr [] => '[' :: ']' :: []
  | .arr (x :: xs) => '[' :: (dumpsC x ++ dumpsArrTail xs ++ [']'])
  | .obj [] => lbraceC :: rbraceC :: []
  | .obj ((k, v) :: ms) =>
    lbraceC :: (escStr k ++ ':' :: ' ' :: dumpsC v ++
      dumpsMemTail ms ++ [rbraceC])

/-- Serialized remaining array elements, each preceded by `", "`. -/
def dumpsArrTail : List J → List Char
  | [] => []
  | y :: ys => ',' :: ' ' :: (dumpsC y ++ dumpsArrTail ys)

/-- Serialized remaining object members, each preceded by `", "`. -/
def dumpsMemTail : List (String × J) → List Char
  | [] => []
  | (k, v) :: ms =>
    ',' :: ' ' :: (escStr k ++ ':' :: ' ' :: dumpsC v ++ dumpsMemTail ms)

end

/-- The serialized text of a payload. -/
def dumps (v : J) : String := String.mk (dumpsC v)

/-- JSON insignificant whitespace. -/
def wsC (c : Char) : Bool := c = ' ' || c = '\t' || c = '\n' || c = '\r'

/-- Skip insignificant whitespace. -/
def skipWs (cs : List Char) : List Char := cs.dropWhile wsC

/-- Decoded character of a single-character string escape: the eight
entries of the decoder's backslash table (`\"` `\\` `\/` `\b` `\f`
`\n` `\r` `\t`); `none` for any other escape character, in particular
`u` — the model parser declines `\uXXXX` escapes rather than
approximate their surrogate handling, so a text using them falls
outside `loads` (the recognizer `strTail` below accepts them). -/
def escMap (c : Char) : Option Char :=
  if c = quoteC then some quoteC
  else if c = backC then some backC
  else if c = '/' then some '/'
  else if c = 'b' then some (Char.ofNat 8)
  else if c = 'f' then some (Char.ofNat 12)
  else if c = 'n' then some (Char.ofNat 10)
  else if c = 'r' then some (Char.ofNat 13)
  else if c = 't' then some (Char.ofNat 9)
  else none

/-- Parse the body of a JSON string after the opening quote; returns
the decoded content characters and the remainder after the closing
quote.  As in the decoder's strict mode, a raw character below 0x20
is rejected, and an escape not in the backslash table fails the
parse. -/
def parseStrC : List Char → Option (List Char × List Char)
  | [] => none
  | c :: rest =>
    if c = quoteC then some ([], rest)
    else if c = backC then
      match rest with
      | [] => none
      | c2 :: rest2 =>
        match escMap c2 with
        | some d => (parseStrC rest2).map (fun p => (d :: p.1, p.2))
        | none => none
    else if c.toNat < 32 then none
    else (parseStrC rest).map (fun p => (c :: p.1, p.2))

/-- Parse an unsigned JSON integer token, the integer part
`0|[1-9][0-9]*` of the scanner's number grammar: a leading zero is a
complete token and cannot be followed by further digits.  Returns the
value and the remainder. -/
def parseNatTok (cs : List Char) : Option (Nat × List Char) :=
  match cs with
  | [] => none
  | c :: rest =>
    if c = '0' then some (0, rest)
    else if c.isDigit then
      let p := rest.span Char.isDigit
      some (digitsToNat (c :: p.1), p.2)
    else none

/-- Parse a decimal integer (optional leading minus).  A fraction or
exponent continuation is left in the remainder, where no expectation
of the surrounding grammar accepts it, so a float document fails the
parse as a whole. -/
def parseNum (cs : List Char) : Option (J × List Char) :=
  match cs with
  | [] => none
  | c :: rest =>
    if c = minusC then
      (parseNatTok rest).map (fun p => (.num (-(p.1 : Int)), p.2))
    else (parseNatTok cs).map (fun p => (.num (p.1 : Int), p.2))

/-- Consume an exact literal continuation (the characters of the
first list), returning the remainder of the second. -/
def litTail : List Char → List Char → Option (List Char)
  | [], cs => some cs
  | _ :: _, [] => none
  | l :: ls, c :: cs => if c = l then litTail ls cs else none

mutual

/-- Fuel-indexed recursive-descent parser for one JSON value;
models `json.loads` together with `loads` below. -/
def parseVal : Nat → List Char → Option (J × List Char)
  | 0, _ => none
  | fuel + 1, cs =>
    match skipWs cs with
    | [] => none
    | c :: rest =>
      if c = 'n' then
        (litTail ['u', 'l', 'l'] rest).map (fun r => (.null, r))
      else if c = 't' then
        (litTail ['r', 'u', 'e'] rest).map (fun r => (.jbool true, r))
      else if c = 'f' then
        (litTail ['a', 'l', 's', 'e'] rest).map (fun r => (.jbool false, r))
      else if c = quoteC then
        (parseStrC rest).map (fun p => (.jstr (String.mk p.1), p.2))
      else if c = '[' then
        match skipWs rest with
        | [] => none
        | c1 :: rest1 =>
          if c1 = ']' then some (.arr [], rest1)
          else (parseElems fuel (c1 :: rest1)).map
            (fun p => (.arr p.1, p.2))
      else if c = lbraceC then
        match skipWs rest with
        | [] => none
        | c1 :: rest1 =>
          if c1 = rbraceC then some (.obj [], rest1)
          else (parseMembers fuel (c1 :: rest1)).map
            (fun p => (.obj p.1, p.2))
      else if c = minusC || c.isDigit then parseNum (c :: rest)
      else none

/-- Parse the non-empty element list of an array, consuming the
closing bracket. -/
def parseElems : Nat → List Char → Option (List J × List Char)
  | 0, _ => none
  | fuel + 1, cs => do
    let (v, rest) ← parseVal fuel cs
    match skipWs rest with
    | [] => none
    | c :: rest1 =>
      if c = ',' then
        (parseElems fuel rest1).map (fun p => (v :: p.1, p.2))
      else if c = ']' then some ([v], rest1)
      else none

/-- Parse the non-empty member list of an object, consuming the
closing brace. -/
def parseMembers : Nat → List Char → Option (List (String × J) × List Char)
  | 0, _ => none
  | fuel + 1, cs =>
    match skipWs cs with
    | [] => none
    | c :: rest =>
      if c = quoteC then do
        let (k, rest1) ← parseStrC rest
        match skipWs rest1 with
        | [] => none
        | c1 :: rest2 =>
          if c1 = ':' then do
            let (v, rest3) ← parseVal fuel rest2
            match skipWs rest3 with
            | [] => none
            | c2 :: rest4 =>
              if c2 = ',' then
                (parseMembers fuel rest4).map
                  (fun p => ((String.mk k, v) :: p.1, p.2))
              else if c2 = rbraceC then some ([(String.mk k, v)], rest4)
              else none
          else none
      else none

end

/-- Model of `json.loads`: parse one value and require only
whitespace to remain; `none` models `json.JSONDecodeError`. -/
def loads (s : String) : Option J :=
  match parseVal (s.length + 1) s.data with
  | some (v, rest) => if (skipWs rest).isEmpty then some v else none
  | none => none

/-- Hexadecimal digit (for the `\uXXXX` escape). -/
def isHexDigit (c : Char) : Bool :=
  c.isDigit || (97 ≤ c.toNat && c.toNat ≤ 102) ||
    (65 ≤ c.toNat && c.toNat ≤ 70)

/-- Recognizer for the body of a JSON string after the opening quote,
returning the remainder after the closing quote: raw characters of
code at least 0x20 other than the quote and the backslash, the eight
single-character escapes of the backslash table, and `\uXXXX` with
four hex digits (which `json.loads` accepts even for lone surrogates,
so the recognizer checks only the four digits). -/
def strTail : List Char → Option (List Char)
  | [] => none
  | c :: rest =>
    if c = quoteC then some rest
    else if c = backC then
      match rest with
      | [] => none
      | e :: rest2 =>
        if e = 'u' then
          match rest2 with
          | h1 :: h2 :: h3 :: h4 :: rest3 =>
            if isHexDigit h1 && isHexDigit h2 && isHexDigit h3 &&
                isHexDigit h4 then strTail rest3
            else none
          | _ => none
        else
          match escMap e with
          | some _ => strTail rest2
          | none => none
    else if c.toNat < 32 then none
    else strTail rest

/-- Recognizer for the integer part `0|[1-9][0-9]*` of a JSON number,
returning the remainder. -/
def intPartTail : List Char → Option (List Char)
  | [] => none
  | c :: rest =>
    if c = '0' then some rest
    else if c.isDigit then some (rest.dropWhile Char.isDigit)
    else none

/-- Recognizer for the optional fraction group `(\.[0-9]+)?` of the
number grammar; when the characters do not start a complete fraction
the group does not participate and the input is returned unchanged. -/
def fracPartTail (cs : List Char) : List Char :=
  match cs with
  | c :: d :: rest =>
    if c = '.' then
      if d.isDigit then rest.dropWhile Char.isDigit else cs
    else cs
  | _ => cs

/-- Recognizer for the optional exponent group `([eE][-+]?[0-9]+)?`
of the number grammar; when the characters do not start a complete
exponent the group does not participate and the input is returned
unchanged. -/
def expPartTail (cs : List Char) : List Char :=
  match cs with
  | e :: s :: rest =>
    if e = 'e' ∨ e = 'E' then
      if s = '+' ∨ s = minusC then
        match rest with
        | d :: rest2 =>
          if d.isDigit then rest2.dropWhile Char.isDigit else cs
        | [] => cs
      else if s.isDigit then rest.dropWhile Char.isDigit
      else cs
    else cs
  | _ => cs

/-- Recognizer for a complete JSON number token
`-?(0|[1-9][0-9]*)(\.[0-9]+)?([eE][-+]?[0-9]+)?` (the scanner's
number regex), returning the remainder. -/
def numTokTail (cs : List Char) : Option (List Char) :=
  match cs with
  | [] => none
  | c :: rest =>
    if c = minusC then
      (intPartTail rest).map (fun r => expPartTail (fracPartTail r))
    else (intPartTail cs).map (fun r => expPartTail (fracPartTail r))

/-- Recognizer for one JSON scalar value, returning the remainder: a
string, a number, one of the literals `true` / `false` / `null`, or
one of the non-standard constants `NaN`, `Infinity`, `-Infinity` that
`json.loads` accepts by default (on `-` the scanner first tries the
number regex, which requires a digit, then the `-Infinity`
constant). -/
def scalarTail : List Char → Option (List Char)
  | [] => none
  | c :: rest =>
    if c = 'n' then litTail ['u', 'l', 'l'] rest
    else if c = 't' then litTail ['r', 'u', 'e'] rest
    else if c = 'f' then litTail ['a', 'l', 's', 'e'] rest
    else if c = quoteC then strTail rest
    else if c = 'N' then litTail ['a', 'N'] rest
    else if c = 'I' then litTail ['n', 'f', 'i', 'n', 'i', 't', 'y'] rest
    else if c = minusC then
      match intPartTail rest with
      | some r => some (expPartTail (fracPartTail r))
      | none => litTail ['I', 'n', 'f', 'i', 'n', 'i', 't', 'y'] rest
    else if c.isDigit then numTokTail (c :: rest)
    else none

/-- The set of texts `json.loads` accepts among texts free of the two
container-opening characters: optional whitespace, one scalar value,
optional whitespace, end of input (anything further is the scanner's
extra-data error). -/
def scalarJsonDoc (s : String) : Bool :=
  match scalarTail (skipWs s.data) with
  | some r => (skipWs r).isEmpty
  | none => false

/-- Whether a text contains neither `[` nor the opening brace, so
that the `json.loads` scanner never reaches an array or an object on
it and accepts it exactly when `scalarJsonDoc` does. -/
def bracketFree (s : String) : Bool :=
  s.data.all (fun c => !(c = '[' || c = lbraceC))

/-- The text `Database.save_user_preference` stores for a payload:
`json.dumps(value)` when the payload is a dict or a list, `str(value)`
otherwise. -/
def storedText : J → String
  | .arr xs => dumps (.arr xs)
  | .obj ms => dumps (.obj ms)
  | .null => "None"
  | .jbool b => if b then "True" else "False"
  | .num n => decimalStr n
  | .jstr s => s

/-- Embedding of `Database.save_user_preference`: the
`INSERT OR REPLACE` keyed on `preference_key` upserts the serialized
text (the table is only ever read back by key, so replacing the row in
place is extensionally faithful). -/
def save_user_preference (key : String) (value : J)
    (prefs : List (String × String)) : List (String × String) :=
  dictInsert key (storedText value) prefs

/-- Embedding of `Database.get_user_preference`: a missing key returns
the default; a stored text is `json.loads`-parsed, and on a parse
failure the raw text is returned verbatim (as a string payload). -/
def get_user_preference (key : String) (default : J)
    (prefs : List (String × String)) : J :=
  match prefs.lookup key with
  | some text =>
    match loads text with
    | some v => v
    | none => .jstr text
  | none => default

/-- What reading a key back immediately after writing payload `v`
yields (see `c9_preference_roundtrip_amended`): dicts, lists and
integers deserialize to the stored payload; a string comes back as
its JSON parse when the model parser accepts its text, verbatim
otherwise; booleans and `None` come back as their Python string
forms. -/
def readBack : J → J
  | .arr xs => .arr xs
  | .obj ms => .obj ms
  | .num n => .num n
  | .jstr s =>
    match loads s with
    | some v => v
    | none => .jstr s
  | .jbool b => .jstr (if b then "True" else "False")
  | .null => .jstr "None"

/-! ## Auxiliary definitions used by the claim statements -/

/-- The rows of the `metadata_learning` table holding the given
(field, value) pair. -/
def rowsFor (f v : String) (db : List MLRow) : List MLRow :=
  db.filter (fun r => decide (r.field_name = f ∧ r.field_value = v))

/-- Record the same (field, value) pair once per listed time, in
order (`N` consecutive `save_metadata_value` calls). -/
def saveTimes (f v : String) (ts : List Nat) (db : List MLRow) :
    List MLRow :=
  ts.foldl (fun db t => save_metadata_value t f v db) db

/-- The record with its non-mapping sections removed. -/
def filterMapped (m : MetaRecord) : MetaRecord :=
  m.filter (fun sf =>
    match sf.2 with
    | .map _ => true
    | .raw _ => false)

/-- Whether some mapping section of the record holds the named field
with a Python-truthy value. -/
def hasTruthyField (m : MetaRecord) (name : String) : Bool :=
  m.any (fun sf =>
    match sf.2 with
    | .map fs => fs.any (fun fv => fv.1 == name && truthy fv.2)
    | .raw _ => false)

/-- Whether the `EXIF` section, when present, is a mapping. -/
def exifIsMapped (m : MetaRecord) : Bool :=
  match m.lookup "EXIF" with
  | some (.raw _) => false
  | _ => true

/-- The field list of the `EXIF` section (empty when absent or not a
mapping). -/
def exifMapFields (m : MetaRecord) : List (String × PValue) :=
  match m.lookup "EXIF" with
  | some (.map fs) => fs
  | _ => []

/-- Whether a raw scalar is an int or a bool (the values on which a
Python `in` membership test raises `TypeError`). -/
def isIntOrBool : PValue → Bool
  | .pint _ => true
  | .pbool _ => true
  | .pstr _ => false

mutual

/-- Parser fuel sufficient for one serialized value. -/
def jfuel : J → Nat
  | .arr xs => 1 + efuel xs
  | .obj ms => 1 + mfuel ms
  | .null => 1
  | .jbool _ => 1
  | .num _ => 1
  | .jstr _ => 1

/-- Parser fuel sufficient for serialized array elements. -/
def efuel : List J → Nat
  | [] => 0
  | x :: xs => 1 + jfuel x + efuel xs

/-- Parser fuel sufficient for serialized object members. -/
def mfuel : List (String × J) → Nat
  | [] => 0
  | (_, v) :: ms => 1 + jfuel v + mfuel ms

end

/-- Whether every character of a string is at code point 0x20 or
above.  The model serializer escapes only the quote and the
backslash, while `json.dumps` additionally escapes the control
characters below 0x20 (which the strict decoder rejects raw), so the
serializer round trip is stated for payloads whose strings contain
none; the stored texts then differ from `json.dumps` output only in
item separators and `ensure_ascii` escaping, neither of which changes
the value read back. -/
def strOkChars (s : String) : Bool := s.data.all (fun c => 32 ≤ c.toNat)

mutual

/-- Payload well-formedness for the serializer round trip: every
string inside the payload satisfies `strOkChars`. -/
def jOk : J → Bool
  | .null => true
  | .jbool _ => true
  | .num _ => true
  | .jstr s => strOkChars s
  | .arr xs => eOk xs
  | .obj ms => mOk ms

/-- `jOk` on every element of an array. -/
def eOk : List J → Bool
  | [] => true
  | x :: xs => jOk x && eOk xs

/-- `strOkChars` on every key and `jOk` on every value of an
object. -/
def mOk : List (String × J) → Bool
  | [] => true
  | (k, v) :: ms => strOkChars k && jOk v && mOk ms

end

/-- Whether the head of the remainder cannot extend a number token. -/
def headNotDigit (cs : List Char) : Bool :=
  match cs with
  | [] => true
  | c :: _ => !c.isDigit

/-- Side condition for parsing a serialized value followed by
`rest`: a number must not be followed directly by a digit. -/
def numOkB (v : J) (rest : List Char) : Bool :=
  match v with
  | .num _ => headNotDigit rest
  | _ => true

/-! ## Claim theorems -/

/-- C1 (code bug): the claim says `validate` returns a list of error
messages (one per structural fault, empty for a valid record).  The
source's `validate_metadata` accumulates exactly the claimed error
list — as the last three conjuncts show on the claim's own inputs —
but the function body has no `return` statement, so the Python
function returns `None` for every record, including the three inputs
singled out by the claim: the computed list is discarded. -/
theorem c1_validate_metadata_returns_none :
    (∀ m : MetaRecord, validate_metadata m = none) ∧
    validate_metadata_errors [("EXIF", SectionVal.raw (.pstr "not-a-map"))] =
      ["Section " ++ apos ++ "EXIF" ++ apos ++ " must be a dictionary"] ∧
    validate_metadata_errors [("EXIF", SectionVal.map [("", .pstr "x")])] =
      ["Field name in " ++ apos ++ "EXIF" ++ apos ++ " cannot be empty"] ∧
    validate_metadata_errors
      [("EXIF", SectionVal.map [("Artist", .pstr "Ann")])] = [] :=
  ⟨fun _ => rfl, by decide, by decide, by decide⟩

/-- C2: each of the three section write helpers returns `True` for
every path and payload (they are pure stubs, so no write is
performed), and consequently `update_metadata` returns `True` — its
failure report is unreachable — whenever the file exists and its
extension is supported. -/
theorem c2_section_write_stubs_report_success
    (p : String) (d : SectionVal) (ext : String) (m : MetaRecord)
    (hext : supported_formats.contains (lowerStr ext) = true) :
    update_exif_data p d = true ∧ update_iptc_data p d = true ∧
    update_xmp_data p d = true ∧ update_metadata true p ext m = true := by
  refine ⟨rfl, rfl, rfl, ?_⟩
  unfold update_metadata update_metadata_gen
  rw [hext]
  cases List.lookup "EXIF" m <;> cases List.lookup "IPTC" m <;>
    cases List.lookup "XMP" m <;>
    simp [update_exif_data, update_iptc_data, update_xmp_data]

/-- Witness for `c2_section_write_stubs_report_success` at a concrete
input. -/
theorem c2_section_write_stubs_report_success_witness :
    supported_formats.contains (lowerStr ".jpg") = true ∧
    update_metadata true "img.jpg" ".jpg" [("EXIF", SectionVal.map [])] = true :=
  ⟨by decide, (c2_section_write_stubs_report_success "img.jpg"
    (SectionVal.map []) ".jpg" [("EXIF", SectionVal.map [])] (by decide)).2.2.2⟩

/-- C3: for an existing, supported-format path, the merge result is
the conjunction of the write-path results of the sections present in
the payload, and the trace of attempted section writes is a function
of the payload alone — it does not depend on the write results, so a
failing section neither prevents nor rolls back the writes attempted
for the other sections. -/
theorem c3_update_metadata_merge_conjunction
    (we wi wx : String → SectionVal → Bool) (p ext : String) (m : MetaRecord)
    (hext : supported_formats.contains (lowerStr ext) = true) :
    (update_metadata_gen we wi wx true p ext m).1 =
      ((match List.lookup "EXIF" m with
        | some d => we p d
        | none => true) &&
       (match List.lookup "IPTC" m with
        | some d => wi p d
        | none => true) &&
       (match List.lookup "XMP" m with
        | some d => wx p d
        | none => true)) ∧
    (update_metadata_gen we wi wx true p ext m).2 =
      ((if (List.lookup "EXIF" m).isSome then ["EXIF"] else []) ++
       (if (List.lookup "IPTC" m).isSome then ["IPTC"] else []) ++
       (if (List.lookup "XMP" m).isSome then ["XMP"] else [])) := by
  unfold update_metadata_gen
  rw [hext]
  cases List.lookup "EXIF" m <;> cases List.lookup "IPTC" m <;>
    cases List.lookup "XMP" m <;> simp

/-- Witness for `c3_update_metadata_merge_conjunction` at a concrete
input with a failing EXIF write: the overall result is `false`, yet
the IPTC write was still attempted. -/
theorem c3_update_metadata_merge_conjunction_witness :
    supported_formats.contains (lowerStr ".jpg") = true ∧
    (update_metadata_gen (fun _ _ => false) (fun _ _ => true)
      (fun _ _ => true) true "img.jpg" ".jpg"
      [("EXIF", SectionVal.map []), ("IPTC", SectionVal.map [])]).1 = false ∧
    (update_metadata_gen (fun _ _ => false) (fun _ _ => true)
      (fun _ _ => true) true "img.jpg" ".jpg"
      [("EXIF", SectionVal.map []), ("IPTC", SectionVal.map [])]).2 =
      ["EXIF", "IPTC"] := by
  have h := c3_update_metadata_merge_conjunction (fun _ _ => false)
    (fun _ _ => true) (fun _ _ => true) "img.jpg" ".jpg"
    [("EXIF", SectionVal.map []), ("IPTC", SectionVal.map [])] (by decide)
  exact ⟨by decide, h.1.trans (by decide), h.2.trans (by decide)⟩

/-- The call trace accumulated by `learn_from_metadata`'s inner field
loop extends the accumulator with the guarded fields of the section. -/
theorem learnStep_snd {σ : Type} (rv : σ → String → String → σ × Bool)
    (fields : List (String × PValue)) (p : σ × List (String × String)) :
    (List.foldl (learnStep rv) p fields).2 =
      p.2 ++ (fields.filter learnGuard).map (fun fv => (fv.1, pyStr fv.2)) := by
  induction fields generalizing p with
  | nil => simp
  | cons fv fs ih =>
    rw [List.foldl_cons]
    by_cases h : learnGuard fv = true
    · simp [learnStep, h, ih, List.filter_cons]
    · simp [learnStep, h, ih, List.filter_cons]

/-- The call trace accumulated by `learn_from_metadata`'s section loop
extends the accumulator with the recorded fields of the record. -/
theorem learn_fold_trace {σ : Type} (rv : σ → String → String → σ × Bool)
    (m : MetaRecord) : ∀ p : σ × List (String × String),
    (List.foldl (fun acc sf =>
      match sf.2 with
      | SectionVal.raw _ => acc
      | SectionVal.map fields => List.foldl (learnStep rv) acc fields) p m).2
    = p.2 ++ recordedFields m := by
  induction m with
  | nil => intro p; simp [recordedFields]
  | cons sf ms ih =>
    intro p
    rw [List.foldl_cons]
    obtain ⟨name, sv⟩ := sf
    cases sv with
    | raw v => rw [ih]; simp [recordedFields]
    | map fields =>
      rw [ih, learnStep_snd]
      simp [recordedFields]

/-- C6: `learn_from_metadata` returns `True` for every record and
every store behaviour — a `false` (failure) result from any
`recordValue` call is discarded and neither aborts the iteration nor
changes the result — and the store-call trace is exactly the fields
whose value passes the source guard (Python-truthy and non-blank
string form): a field is skipped exactly when its value is falsy
(empty string, zero, `False`) or its string form is blank after
trimming. -/
theorem c6_learn_records_guarded_fields_and_never_fails {σ : Type}
    (record_value : σ → String → String → σ × Bool) (m : MetaRecord)
    (s0 : σ) :
    (learn_from_metadata record_value m s0).1 = true ∧
    (learn_from_metadata record_value m s0).2.2 = recordedFields m := by
  refine ⟨rfl, ?_⟩
  unfold learn_from_metadata
  rw [learn_fold_trace]
  simp

/-- C6 counterexample: the claim says the skipped fields are exactly
those whose value is empty or blank after string conversion and
trimming.  The integer value `0` has the non-blank string form `"0"`,
so the claim mandates recording `("Rating", "0")`; the code's guard
`if field_value and ...` tests Python truthiness first, so the field
is skipped and the trace is empty. -/
theorem c6_learn_counterexample :
    (learn_from_metadata (fun (s : Unit) _ _ => (s, true))
      [("EXIF", SectionVal.map [("Rating", PValue.pint 0)])] ()).2.2 = [] ∧
    stripStr (pyStr (PValue.pint 0)) ≠ "" :=
  ⟨rfl, by decide⟩

/-- Membership in a conditional singleton. -/
theorem mem_iteSingleton {α : Type} (y x : α) (c : Bool) :
    (y ∈ (if c then [x] else [])) ↔ (c = true ∧ y = x) := by
  cases c <;> simp

/-- C7: pattern classification tags a value, after stringification,
lowercasing and stripping, by four independent, non-exclusive rules:
`email` iff it contains `@` and `.`; `date` iff it contains a digit
and is at least 8 characters long; `location` iff it contains one of
the location keywords; `name` iff it contains one of the name-title
keywords — and the claim's three concrete examples behave as
stated. -/
theorem c7_pattern_classification :
    (∀ v : PValue,
      (("email" ∈ update_field_patterns v) ↔
        (containsSub (stripStr (lowerStr (pyStr v))) "@" = true ∧
         containsSub (stripStr (lowerStr (pyStr v))) "." = true)) ∧
      (("date" ∈ update_field_patterns v) ↔
        ((stripStr (lowerStr (pyStr v))).data.any Char.isDigit = true ∧
         8 ≤ (stripStr (lowerStr (pyStr v))).length)) ∧
      (("location" ∈ update_field_patterns v) ↔
        (∃ kw ∈ location_keywords,
          containsSub (stripStr (lowerStr (pyStr v))) kw = true)) ∧
      (("name" ∈ update_field_patterns v) ↔
        (∃ kw ∈ name_keywords,
          containsSub (stripStr (lowerStr (pyStr v))) kw = true))) ∧
    "email" ∈ update_field_patterns (.pstr "john@example.com") ∧
    "location" ∈ update_field_patterns (.pstr "123 Main Street") ∧
    "date" ∉ update_field_patterns (.pstr "42") := by
  refine ⟨fun v => ?_, by decide, by decide, by decide⟩
  simp only [update_field_patterns, List.mem_append, mem_iteSingleton,
    Bool.and_eq_true, List.any_eq_true, decide_eq_true_eq]
  refine ⟨?_, ?_, ?_, ?_⟩ <;> simp

/-- Saving a (field, value) pair absent from the table creates exactly
one matching row with count 1 and the call's timestamp. -/
theorem rowsFor_save_absent (now : Nat) (f v : String) (db : List MLRow)
    (h : rowsFor f v db = []) :
    rowsFor f v (save_metadata_value now f v db) = [⟨f, v, 1, now⟩] := by
  induction db with
  | nil => simp [save_metadata_value, rowsFor]
  | cons r rs ih =>
    by_cases hp : r.field_name = f ∧ r.field_value = v
    · exfalso
      simp [rowsFor, List.filter_cons, hp] at h
    · have h' : rowsFor f v rs = [] := by
        simpa [rowsFor, List.filter_cons, hp] using h
      rw [save_metadata_value, if_neg hp]
      simpa [rowsFor, List.filter_cons, hp] using ih h'

/-- Saving a (field, value) pair held by exactly one row increments
that row's count and refreshes its timestamp. -/
theorem rowsFor_save_present (now : Nat) (f v : String) (db : List MLRow)
    (c t : Nat) (h : rowsFor f v db = [⟨f, v, c, t⟩]) :
    rowsFor f v (save_metadata_value now f v db) = [⟨f, v, c + 1, now⟩] := by
  induction db with
  | nil => simp [rowsFor] at h
  | cons r rs ih =>
    by_cases hp : r.field_name = f ∧ r.field_value = v
    · have h2 : r ::
          List.filter (fun x => decide (x.field_name = f ∧ x.field_value = v))
            rs = [(⟨f, v, c, t⟩ : MLRow)] := by
        simpa [rowsFor, List.filter_cons, hp] using h
      obtain ⟨hr, hrs⟩ := List.cons_eq_cons.mp h2
      subst hr
      rw [save_metadata_value, if_pos hp]
      simpa [rowsFor, List.filter_cons] using hrs
    · have h' : rowsFor f v rs = [⟨f, v, c, t⟩] := by
        simpa [rowsFor, List.filter_cons, hp] using h
      rw [save_metadata_value, if_neg hp]
      simpa [rowsFor, List.filter_cons, hp] using ih h'

/-- Saving preserves the invariant that every row's count is at least
one. -/
theorem save_counts_pos (now : Nat) (f v : String) (db : List MLRow)
    (h : ∀ r ∈ db, 1 ≤ r.usage_count) :
    ∀ r ∈ save_metadata_value now f v db, 1 ≤ r.usage_count := by
  induction db with
  | nil =>
    intro r hr
    rw [save_metadata_value] at hr
    simp at hr
    subst hr
    exact le_refl 1
  | cons r0 rs ih =>
    intro r hr
    rw [save_metadata_value] at hr
    by_cases hp : r0.field_name = f ∧ r0.field_value = v
    · rw [if_pos hp] at hr
      rcases List.mem_cons.mp hr with h1 | h1
      · subst h1; simp
      · exact h r (List.mem_cons_of_mem _ h1)
    · rw [if_neg hp] at hr
      rcases List.mem_cons.mp hr with h1 | h1
      · subst h1; exact h r (List.mem_cons_self _ _)
      · exact ih (fun r2 hr2 => h r2 (List.mem_cons_of_mem _ hr2)) r h1

/-- Iterated saving of one pair adds the number of calls to the
count and leaves the last call's timestamp. -/
theorem saveTimes_rowsFor (f v : String) (ts : List Nat) :
    ∀ (db : List MLRow) (c t : Nat), rowsFor f v db = [⟨f, v, c, t⟩] →
    rowsFor f v (saveTimes f v ts db) =
      [⟨f, v, c + ts.length, ts.getLastD t⟩] := by
  induction ts with
  | nil => intro db c t h; simpa [saveTimes] using h
  | cons t0 ts' ih =>
    intro db c t h
    rw [saveTimes, List.foldl_cons]
    have h1 := rowsFor_save_present t0 f v db c t h
    have h2 := ih (save_metadata_value t0 f v db) (c + 1) t0 h1
    rw [saveTimes] at h2
    rw [h2, List.getLastD_cons]
    simp only [List.length_cons]
    rw [show c + 1 + ts'.length = c + (ts'.length + 1) from by omega]

/-- Iterated saving preserves the positive-count invariant. -/
theorem saveTimes_counts_pos (f v : String) (ts : List Nat) :
    ∀ (db : List MLRow), (∀ r ∈ db, 1 ≤ r.usage_count) →
    ∀ r ∈ saveTimes f v ts db, 1 ≤ r.usage_count := by
  induction ts with
  | nil => intro db h; simpa [saveTimes] using h
  | cons t0 ts' ih =>
    intro db h
    rw [saveTimes, List.foldl_cons]
    exact ih _ (save_counts_pos t0 f v db h)

/-- C5: starting from a table with no row for the pair (and all counts
at least 1), recording the same (field, value) pair once per listed
time leaves exactly one row for the pair, whose count equals the
number of calls and whose `last_used` is the final call's time; the
first call creates the row with count 1 (the `ts = []` instance of
the statement) and every row's count stays at least 1. -/
theorem c5_usage_count_equals_call_count (f v : String) (t0 : Nat)
    (ts : List Nat) (db : List MLRow)
    (habs : rowsFor f v db = [])
    (hpos : ∀ r ∈ db, 1 ≤ r.usage_count) :
    rowsFor f v (saveTimes f v (t0 :: ts) db) =
      [⟨f, v, (t0 :: ts).length, List.getLastD ts t0⟩] ∧
    (∀ r ∈ saveTimes f v (t0 :: ts) db, 1 ≤ r.usage_count) := by
  constructor
  · rw [saveTimes, List.foldl_cons]
    have h1 := rowsFor_save_absent t0 f v db habs
    have h2 := saveTimes_rowsFor f v ts (save_metadata_value t0 f v db) 1 t0 h1
    rw [saveTimes] at h2
    rw [h2]
    simp only [List.length_cons]
    rw [show 1 + ts.length = ts.length + 1 from by omega]
  · exact saveTimes_counts_pos f v (t0 :: ts) db hpos

/-- Witness for `c5_usage_count_equals_call_count`: three recordings
of ("Artist", "Ann") at times 5, 6, 7 leave one row with count 3 and
last-used 7. -/
theorem c5_usage_count_equals_call_count_witness :
    rowsFor "Artist" "Ann" ([] : List MLRow) = [] ∧
    rowsFor "Artist" "Ann" (saveTimes "Artist" "Ann" [5, 6, 7] []) =
      [⟨"Artist", "Ann", 3, 7⟩] := by
  have h := c5_usage_count_equals_call_count "Artist" "Ann" 5 [6, 7] []
    rfl (by simp)
  exact ⟨rfl, h.1.trans (by decide)⟩

/-- C8: `get_popular_values` returns at most `limit` entries; the
entries are pairwise ordered descending by the (usage_count,
last_used) pair (usage count primary, last-used tie-break); the result
extends to a permutation of the full flattening of
`get_all_suggestions` (it is a truncation of a sorted rearrangement of
it); and on the claim's example store, the count-10 value `a` is
returned before the count-3, more recent value `b`. -/
theorem c8_popular_values_sorted_flattening :
    (∀ (db : List MLRow) (limit : Nat),
      (get_popular_values db limit).length ≤ limit ∧
      List.Pairwise popRel (get_popular_values db limit) ∧
      ∃ rest, (get_popular_values db limit ++ rest).Perm (flattenAll db)) ∧
    get_popular_values [⟨"f1", "a", 10, 1⟩, ⟨"f2", "b", 3, 2⟩] 10 =
      [⟨"f1", "a", 10, 1⟩, ⟨"f2", "b", 3, 2⟩] := by
  constructor
  · intro db limit
    refine ⟨?_, ?_, ?_⟩
    · rw [get_popular_values, List.length_take]
      exact min_le_left _ _
    · exact List.Pairwise.sublist (List.take_sublist _ _)
        (List.sorted_insertionSort popRel (flattenAll db))
    · refine ⟨(List.insertionSort popRel (flattenAll db)).drop limit, ?_⟩
      rw [get_popular_values, List.take_append_drop]
      exact List.perm_insertionSort popRel (flattenAll db)
  · decide

/-- The camera component of the field loop of
`_analyze_metadata_patterns`. -/
theorem analyzeField_fst (fields : List (String × PValue)) :
    ∀ acc, (List.foldl analyzeFieldStep acc fields).1 =
      acc.1 ++ namesOfFields camera_field_names fields := by
  induction fields with
  | nil => intro acc; simp [namesOfFields]
  | cons fv fs ih =>
    intro acc
    rw [List.foldl_cons, ih]
    by_cases ht : truthy fv.2
    · by_cases hc : fv.1 ∈ camera_field_names
      · simp [analyzeFieldStep, ht, hc, namesOfFields, List.filter_cons]
      · simp [analyzeFieldStep, ht, hc, namesOfFields, List.filter_cons]
    · simp [analyzeFieldStep, ht, namesOfFields, List.filter_cons]

/-- The location component of the field loop of
`_analyze_metadata_patterns`. -/
theorem analyzeField_loc (fields : List (String × PValue)) :
    ∀ acc, (List.foldl analyzeFieldStep acc fields).2.1 =
      acc.2.1 ++ namesOfFields location_field_names fields := by
  induction fields with
  | nil => intro acc; simp [namesOfFields]
  | cons fv fs ih =>
    intro acc
    rw [List.foldl_cons, ih]
    by_cases ht : truthy fv.2
    · by_cases hc : fv.1 ∈ location_field_names
      · simp [analyzeFieldStep, ht, hc, namesOfFields, List.filter_cons]
      · simp [analyzeFieldStep, ht, hc, namesOfFields, List.filter_cons]
    · simp [analyzeFieldStep, ht, namesOfFields, List.filter_cons]

/-- The author component of the field loop of
`_analyze_metadata_patterns`. -/
theorem analyzeField_auth (fields : List (String × PValue)) :
    ∀ acc, (List.foldl analyzeFieldStep acc fields).2.2.1 =
      acc.2.2.1 ++ namesOfFields author_field_names fields := by
  induction fields with
  | nil => intro acc; simp [namesOfFields]
  | cons fv fs ih =>
    intro acc
    rw [List.foldl_cons, ih]
    by_cases ht : truthy fv.2
    · by_cases hc : fv.1 ∈ author_field_names
      · simp [analyzeFieldStep, ht, hc, namesOfFields, List.filter_cons]
      · simp [analyzeFieldStep, ht, hc, namesOfFields, List.filter_cons]
    · simp [analyzeFieldStep, ht, namesOfFields, List.filter_cons]

/-- The camera pattern list of a record. -/
theorem analyze_fst (m : MetaRecord) :
    (analyze_metadata_patterns m).1 = namesOf camera_field_names m := by
  suffices h : ∀ acc, (List.foldl analyzeSectionStep acc m).1 =
      acc.1 ++ namesOf camera_field_names m by
    simpa [analyze_metadata_patterns] using h ([], [], [], [])
  induction m with
  | nil => intro acc; simp [namesOf]
  | cons sf ms ih =>
    intro acc
    rw [List.foldl_cons]
    obtain ⟨name, sv⟩ := sf
    cases sv with
    | raw v => rw [ih]; simp [analyzeSectionStep, namesOf]
    | map fields =>
      rw [ih]
      simp [analyzeSectionStep, analyzeField_fst, namesOf]

/-- The location pattern list of a record. -/
theorem analyze_loc (m : MetaRecord) :
    (analyze_metadata_patterns m).2.1 = namesOf location_field_names m := by
  suffices h : ∀ acc, (List.foldl analyzeSectionStep acc m).2.1 =
      acc.2.1 ++ namesOf location_field_names m by
    simpa [analyze_metadata_patterns] using h ([], [], [], [])
  induction m with
  | nil => intro acc; simp [namesOf]
  | cons sf ms ih =>
    intro acc
    rw [List.foldl_cons]
    obtain ⟨name, sv⟩ := sf
    cases sv with
    | raw v => rw [ih]; simp [analyzeSectionStep, namesOf]
    | map fields =>
      rw [ih]
      simp [analyzeSectionStep, analyzeField_loc, namesOf]

/-- The author pattern list of a record. -/
theorem analyze_auth (m : MetaRecord) :
    (analyze_metadata_patterns m).2.2.1 = namesOf author_field_names m := by
  suffices h : ∀ acc, (List.foldl analyzeSectionStep acc m).2.2.1 =
      acc.2.2.1 ++ namesOf author_field_names m by
    simpa [analyze_metadata_patterns] using h ([], [], [], [])
  induction m with
  | nil => intro acc; simp [namesOf]
  | cons sf ms ih =>
    intro acc
    rw [List.foldl_cons]
    obtain ⟨name, sv⟩ := sf
    cases sv with
    | raw v => rw [ih]; simp [analyzeSectionStep, namesOf]
    | map fields =>
      rw [ih]
      simp [analyzeSectionStep, analyzeField_auth, namesOf]

/-- `contains` distributes over list append. -/
theorem contains_append (l1 l2 : List String) (a : String) :
    (l1 ++ l2).contains a = (l1.contains a || l2.contains a) := by
  induction l1 with
  | nil => simp
  | cons x xs ih => simp [List.contains_cons, ih, Bool.or_assoc]

/-- Two booleans agreeing as propositions are equal. -/
theorem bool_eq_of_iff {a b : Bool} (h : a = true ↔ b = true) : a = b := by
  cases a <;> cases b <;> simp_all

/-- Membership of a name in a pattern list equals presence of a
truthy field of that name (for names that belong to the pattern's
name set). -/
theorem namesOf_contains (names : List String) (name : String)
    (hmem : names.contains name = true) (m : MetaRecord) :
    (namesOf names m).contains name = hasTruthyField m name := by
  apply bool_eq_of_iff
  constructor
  · intro h
    have hmem2 : name ∈ namesOf names m := by
      simpa [List.contains, List.elem_iff] using h
    rw [namesOf, List.mem_flatMap] at hmem2
    obtain ⟨sf, hsf, hin⟩ := hmem2
    rcases sf with ⟨sname, sv⟩
    cases sv with
    | raw v => simp at hin
    | map fields =>
      dsimp only at hin
      rw [namesOfFields, List.mem_map] at hin
      obtain ⟨fv, hfv, hname⟩ := hin
      rw [List.mem_filter] at hfv
      obtain ⟨hfvmem, hcond⟩ := hfv
      rw [hasTruthyField, List.any_eq_true]
      refine ⟨(sname, SectionVal.map fields), hsf, ?_⟩
      dsimp only
      rw [List.any_eq_true]
      refine ⟨fv, hfvmem, ?_⟩
      have hc := (Bool.and_eq_true _ _).mp hcond
      simp [hname, hc.1]
  · intro h
    rw [hasTruthyField, List.any_eq_true] at h
    obtain ⟨sf, hsf, hcond⟩ := h
    rcases sf with ⟨sname, sv⟩
    cases sv with
    | raw v => simp at hcond
    | map fields =>
      dsimp only at hcond
      rw [List.any_eq_true] at hcond
      obtain ⟨fv, hfvmem, hfc⟩ := hcond
      obtain ⟨hbeq, htr⟩ := (Bool.and_eq_true _ _).mp hfc
      have hname : fv.1 = name := by simpa using hbeq
      suffices hmem2 : name ∈ namesOf names m by
        simpa [List.contains, List.elem_iff] using hmem2
      rw [namesOf, List.mem_flatMap]
      refine ⟨(sname, SectionVal.map fields), hsf, ?_⟩
      dsimp only
      rw [namesOfFields, List.mem_map]
      refine ⟨fv, ?_, hname⟩
      rw [List.mem_filter]
      refine ⟨hfvmem, ?_⟩
      have hnm : names.contains fv.1 = true := by rw [hname]; exact hmem
      have hnm2 : fv.1 ∈ names := by
        simpa [List.contains, List.elem_iff] using hnm
      simp [htr, hnm2]

/-- When the EXIF section is a mapping (or absent), the value the
membership tests run on is the mapping of `exifMapFields`. -/
theorem exif_getD_of_mapped (m : MetaRecord) (hex : exifIsMapped m = true) :
    (List.lookup "EXIF" m).getD (SectionVal.map []) =
      SectionVal.map (exifMapFields m) := by
  rcases h : List.lookup "EXIF" m with _ | sv
  · simp [exifMapFields, h]
  · rcases sv with fs | v
    · simp [exifMapFields, h]
    · rw [exifIsMapped, h] at hex
      simp at hex

/-- The camera branch on a mapped EXIF value never raises and adds a
`Model` entry exactly when `Make` is in the camera pattern list, the
`Model` key is absent from the EXIF mapping, and the store query is
non-empty. -/
theorem contextual_camera_mapped (db : List MLRow) (cam : List String)
    (efs : List (String × PValue)) :
    contextual_camera db cam (SectionVal.map efs) =
      some (if cam.contains "Make" && (List.lookup "Model" efs).isNone &&
          !(get_field_suggestions db "Model" 3).isEmpty
        then [("Model", get_field_suggestions db "Model" 3)] else []) := by
  rw [contextual_camera]
  by_cases h1 : "Make" ∈ cam <;>
    by_cases h2 : (List.lookup "Model" efs).isNone = true <;>
    by_cases h3 : (get_field_suggestions db "Model" 3).isEmpty = true <;>
    simp [notInSection, List.contains, List.elem_eq_mem, h1, h2, h3]

/-- The location branch adds a `Location` entry exactly when both GPS
fields are in the location pattern list and the store query is
non-empty. -/
theorem contextual_location_eq (db : List MLRow) (loc : List String) :
    contextual_location db loc =
      (if loc.contains "GPSLatitude" && loc.contains "GPSLongitude" &&
          !(get_field_suggestions db "Location" 3).isEmpty
        then [("Location", get_field_suggestions db "Location" 3)] else []) := by
  rw [contextual_location]
  by_cases h1 : "GPSLatitude" ∈ loc <;>
    by_cases h2 : "GPSLongitude" ∈ loc <;>
    by_cases h3 : (get_field_suggestions db "Location" 3).isEmpty = true <;>
    simp [List.contains, List.elem_eq_mem, h1, h2, h3]

/-- The author branch on a mapped EXIF value never raises and adds a
`Copyright` entry exactly when `Artist` is in the author pattern list,
the `Copyright` key is absent from the EXIF mapping, and the store
query is non-empty. -/
theorem contextual_author_mapped (db : List MLRow) (auth : List String)
    (efs : List (String × PValue)) :
    contextual_author db auth (SectionVal.map efs) =
      some (if auth.contains "Artist" &&
          (List.lookup "Copyright" efs).isNone &&
          !(get_field_suggestions db "Copyright" 3).isEmpty
        then [("Copyright", get_field_suggestions db "Copyright" 3)] else []) := by
  rw [contextual_author]
  by_cases h1 : "Artist" ∈ auth <;>
    by_cases h2 : (List.lookup "Copyright" efs).isNone = true <;>
    by_cases h3 : (get_field_suggestions db "Copyright" 3).isEmpty = true <;>
    simp [notInSection, List.contains, List.elem_eq_mem, h1, h2, h3]

/-- Characterization of `_get_contextual_suggestions` on records whose
EXIF section (when present) is a mapping: no raise occurs and the
contextual map holds exactly the entries of the three branch rules,
with pattern-list membership expressed as presence of a truthy field
of the trigger name. -/
theorem contextual_of_mapped (db : List MLRow) (m : MetaRecord)
    (hex : exifIsMapped m = true) :
    get_contextual_suggestions db m =
      (if hasTruthyField m "Make" &&
          (List.lookup "Model" (exifMapFields m)).isNone &&
          !(get_field_suggestions db "Model" 3).isEmpty
        then [("Model", get_field_suggestions db "Model" 3)] else []) ++
      (if hasTruthyField m "GPSLatitude" && hasTruthyField m "GPSLongitude" &&
          !(get_field_suggestions db "Location" 3).isEmpty
        then [("Location", get_field_suggestions db "Location" 3)] else []) ++
      (if hasTruthyField m "Artist" &&
          (List.lookup "Copyright" (exifMapFields m)).isNone &&
          !(get_field_suggestions db "Copyright" 3).isEmpty
        then [("Copyright", get_field_suggestions db "Copyright" 3)] else []) := by
  rw [get_contextual_suggestions, contextual_core]
  simp only [exif_getD_of_mapped m hex, analyze_fst, analyze_loc, analyze_auth,
    contextual_camera_mapped, contextual_location_eq, contextual_author_mapped,
    namesOf_contains camera_field_names "Make" (by decide) m,
    namesOf_contains location_field_names "GPSLatitude" (by decide) m,
    namesOf_contains location_field_names "GPSLongitude" (by decide) m,
    namesOf_contains author_field_names "Artist" (by decide) m]
  rfl

/-- A store query returns at most `limit` suggestions. -/
theorem get_field_suggestions_length (db : List MLRow) (f : String)
    (limit : Nat) : (get_field_suggestions db f limit).length ≤ limit := by
  rw [get_field_suggestions]
  simp only [List.length_map, List.length_take]
  exact min_le_left _ _

/-- A successful lookup in a map whose values are bounded returns a
bounded value. -/
theorem lookup_values_bound {l : List (String × List Sugg)}
    (hb : ∀ p ∈ l, p.2.length ≤ 3) :
    ∀ f v, List.lookup f l = some v → v.length ≤ 3 := by
  induction l with
  | nil => intro f v h; simp at h
  | cons p ps ih =>
    intro f v h
    obtain ⟨k, val⟩ := p
    by_cases hbeq : (f == k) = true
    · simp only [List.lookup, hbeq] at h
      cases h
      exact hb _ (List.mem_cons_self _ _)
    · rw [Bool.not_eq_true] at hbeq
      simp only [List.lookup, hbeq] at h
      exact ih (fun q hq => hb q (List.mem_cons_of_mem _ hq)) f v h

/-- C4 (amended): on a record whose EXIF section (when present) is a
mapping, the contextual suggestions obey the rule table with absence
read strictly as key absence: a `Model` list (of at most 3 store
entries) is added iff a `Make` field with a truthy value is present
anywhere and the `Model` key is absent from the EXIF section and the
store query is non-empty; a `Location` list iff `GPSLatitude` and
`GPSLongitude` are both present with truthy values and the query is
non-empty; a `Copyright` list iff an `Artist` field with a truthy
value is present and the `Copyright` key is absent from the EXIF
section and the query is non-empty; and every contextual entry holds
at most 3 suggestions. -/
theorem c4_contextual_rules (db : List MLRow) (m : MetaRecord)
    (hex : exifIsMapped m = true) :
    (List.lookup "Model" (get_contextual_suggestions db m) =
      (if hasTruthyField m "Make" &&
          (List.lookup "Model" (exifMapFields m)).isNone &&
          !(get_field_suggestions db "Model" 3).isEmpty
        then some (get_field_suggestions db "Model" 3) else none)) ∧
    (List.lookup "Location" (get_contextual_suggestions db m) =
      (if hasTruthyField m "GPSLatitude" && hasTruthyField m "GPSLongitude" &&
          !(get_field_suggestions db "Location" 3).isEmpty
        then some (get_field_suggestions db "Location" 3) else none)) ∧
    (List.lookup "Copyright" (get_contextual_suggestions db m) =
      (if hasTruthyField m "Artist" &&
          (List.lookup "Copyright" (exifMapFields m)).isNone &&
          !(get_field_suggestions db "Copyright" 3).isEmpty
        then some (get_field_suggestions db "Copyright" 3) else none)) ∧
    (∀ f l, List.lookup f (get_contextual_suggestions db m) = some l →
      l.length ≤ 3) := by
  rw [contextual_of_mapped db m hex]
  refine ⟨?_, ?_, ?_, ?_⟩
  · by_cases h1 : (hasTruthyField m "Make" &&
        (List.lookup "Model" (exifMapFields m)).isNone &&
        !(get_field_suggestions db "Model" 3).isEmpty) = true <;>
      by_cases h2 : (hasTruthyField m "GPSLatitude" &&
        hasTruthyField m "GPSLongitude" &&
        !(get_field_suggestions db "Location" 3).isEmpty) = true <;>
      by_cases h3 : (hasTruthyField m "Artist" &&
        (List.lookup "Copyright" (exifMapFields m)).isNone &&
        !(get_field_suggestions db "Copyright" 3).isEmpty) = true <;>
      simp [h1, h2, h3, List.lookup]
  · by_cases h1 : (hasTruthyField m "Make" &&
        (List.lookup "Model" (exifMapFields m)).isNone &&
        !(get_field_suggestions db "Model" 3).isEmpty) = true <;>
      by_cases h2 : (hasTruthyField m "GPSLatitude" &&
        hasTruthyField m "GPSLongitude" &&
        !(get_field_suggestions db "Location" 3).isEmpty) = true <;>
      by_cases h3 : (hasTruthyField m "Artist" &&
        (List.lookup "Copyright" (exifMapFields m)).isNone &&
        !(get_field_suggestions db "Copyright" 3).isEmpty) = true <;>
      simp [h1, h2, h3, List.lookup]
  · by_cases h1 : (hasTruthyField m "Make" &&
        (List.lookup "Model" (exifMapFields m)).isNone &&
        !(get_field_suggestions db "Model" 3).isEmpty) = true <;>
      by_cases h2 : (hasTruthyField m "GPSLatitude" &&
        hasTruthyField m "GPSLongitude" &&
        !(get_field_suggestions db "Location" 3).isEmpty) = true <;>
      by_cases h3 : (hasTruthyField m "Artist" &&
        (List.lookup "Copyright" (exifMapFields m)).isNone &&
        !(get_field_suggestions db "Copyright" 3).isEmpty) = true <;>
      simp [h1, h2, h3, List.lookup]
  · apply lookup_values_bound
    intro p hp
    simp only [List.mem_append, mem_iteSingleton] at hp
    rcases hp with (⟨_, rfl⟩ | ⟨_, rfl⟩) | ⟨_, rfl⟩ <;>
      exact get_field_suggestions_length _ _ _

/-- C4 counterexample: the claim reads "Model absent **or empty** in
the EXIF section" (and likewise treats a present-but-empty `Artist`
as a trigger).  Input 1 has `Make = "Canon"` and a present-but-empty
`Model` in EXIF with non-empty store history for `Model`, so the
claim mandates a `Model` contextual entry; the code tests
`'Model' not in EXIF`, which is key absence, and adds nothing.
Input 2 is the analogue for `Artist`/`Copyright`.  Input 3 has a
present-but-empty `Artist`, which the claim's "an Artist field is
present" reading triggers, but the code's pattern analysis skips
falsy values, so nothing is added. -/
theorem c4_contextual_counterexample :
    (truthy (PValue.pstr "Canon") = true ∧
     List.lookup "Model"
       [("Make", PValue.pstr "Canon"), ("Model", PValue.pstr "")] =
       some (PValue.pstr "") ∧
     get_field_suggestions
       [⟨"Model", "EOS", 1, 1⟩, ⟨"Copyright", "c Ann", 1, 1⟩] "Model" 3 ≠ [] ∧
     List.lookup "Model" (get_contextual_suggestions
       [⟨"Model", "EOS", 1, 1⟩, ⟨"Copyright", "c Ann", 1, 1⟩]
       [("EXIF", SectionVal.map
         [("Make", PValue.pstr "Canon"), ("Model", PValue.pstr "")])]) =
       none) ∧
    (List.lookup "Copyright"
       [("Artist", PValue.pstr "Ann"), ("Copyright", PValue.pstr "")] =
       some (PValue.pstr "") ∧
     List.lookup "Copyright" (get_contextual_suggestions
       [⟨"Model", "EOS", 1, 1⟩, ⟨"Copyright", "c Ann", 1, 1⟩]
       [("EXIF", SectionVal.map
         [("Artist", PValue.pstr "Ann"), ("Copyright", PValue.pstr "")])]) =
       none) ∧
    (List.lookup "Artist"
       [("EXIF", SectionVal.map [("Artist", PValue.pstr "")])] = none ∧
     List.lookup "Copyright" (get_contextual_suggestions
       [⟨"Model", "EOS", 1, 1⟩, ⟨"Copyright", "c Ann", 1, 1⟩]
       [("EXIF", SectionVal.map [("Artist", PValue.pstr "")])]) = none) := by
  decide

/-- Witness for `c4_contextual_rules` at a concrete input: with
`Make` present, `Model` absent and store history for `Model`, the
`Model` contextual entry is returned. -/
theorem c4_contextual_rules_witness :
    exifIsMapped [("EXIF", SectionVal.map [("Make", PValue.pstr "Canon")])] =
      true ∧
    List.lookup "Model" (get_contextual_suggestions [⟨"Model", "EOS", 2, 9⟩]
      [("EXIF", SectionVal.map [("Make", PValue.pstr "Canon")])]) =
      some [⟨"EOS", 2, 9⟩] := by
  have h := (c4_contextual_rules [⟨"Model", "EOS", 2, 9⟩]
    [("EXIF", SectionVal.map [("Make", PValue.pstr "Canon")])] (by decide)).1
  exact ⟨by decide, h.trans (by decide)⟩

/-- A section fold that skips non-mapping sections is unchanged by
removing them. -/
theorem fold_skip_raw {β : Type} (g : β → List (String × PValue) → β) :
    ∀ (m : MetaRecord) (p : β),
    List.foldl (fun acc sf =>
      match sf.2 with
      | SectionVal.raw _ => acc
      | SectionVal.map fields => g acc fields) p m =
    List.foldl (fun acc sf =>
      match sf.2 with
      | SectionVal.raw _ => acc
      | SectionVal.map fields => g acc fields) p (filterMapped m) := by
  intro m
  induction m with
  | nil => intro p; rfl
  | cons sf ms ih =>
    intro p
    obtain ⟨name, sv⟩ := sf
    cases sv with
    | raw v => simpa [filterMapped, List.filter_cons] using ih p
    | map fields =>
      simp only [filterMapped, List.filter_cons] at ih ⊢
      simp [ih]

/-- A section flat-map that skips non-mapping sections is unchanged by
removing them. -/
theorem flatMap_skip_raw {β : Type} (g : List (String × PValue) → List β) :
    ∀ m : MetaRecord,
    (m.flatMap (fun sf =>
      match sf.2 with
      | SectionVal.raw _ => []
      | SectionVal.map fields => g fields)) =
    ((filterMapped m).flatMap (fun sf =>
      match sf.2 with
      | SectionVal.raw _ => []
      | SectionVal.map fields => g fields)) := by
  intro m
  induction m with
  | nil => rfl
  | cons sf ms ih =>
    obtain ⟨name, sv⟩ := sf
    cases sv with
    | raw v => simpa [filterMapped, List.filter_cons] using ih
    | map fields =>
      simp only [filterMapped, List.filter_cons] at ih ⊢
      simp [ih]

/-- A membership test on a raw int or bool raises (is `none`). -/
theorem notInSection_raw_none (v : PValue) (hib : isIntOrBool v = true)
    (k : String) : notInSection k (SectionVal.raw v) = none := by
  rcases v with s | n | b
  · simp [isIntOrBool] at hib
  · rfl
  · rfl

/-- When the EXIF section holds a raw int or bool and a `Make` or
`Artist` trigger is present, the membership test raises, the
`TypeError` is swallowed, and the whole contextual map collapses to
empty. -/
theorem contextual_raises (db : List MLRow) (m : MetaRecord) (v : PValue)
    (hexv : List.lookup "EXIF" m = some (SectionVal.raw v))
    (hib : isIntOrBool v = true)
    (htrig : (hasTruthyField m "Make" || hasTruthyField m "Artist") = true) :
    get_contextual_suggestions db m = [] := by
  rw [get_contextual_suggestions, contextual_core]
  have hMakeMem : ("Make" ∈ namesOf camera_field_names m) ↔
      hasTruthyField m "Make" = true := by
    rw [← namesOf_contains camera_field_names "Make" (by decide) m]
    simp [List.contains, List.elem_iff]
  have hArtistMem : ("Artist" ∈ namesOf author_field_names m) ↔
      hasTruthyField m "Artist" = true := by
    rw [← namesOf_contains author_field_names "Artist" (by decide) m]
    simp [List.contains, List.elem_iff]
  simp only [hexv, Option.getD_some, analyze_fst, analyze_loc, analyze_auth]
  by_cases hMake : hasTruthyField m "Make" = true
  · simp [contextual_camera, List.contains, List.elem_eq_mem, hMakeMem,
      hMake, notInSection_raw_none v hib]
  · have hArtist : hasTruthyField m "Artist" = true := by
      rcases (Bool.or_eq_true _ _).mp htrig with h | h
      · exact absurd h hMake
      · exact h
    simp [contextual_camera, contextual_author, List.contains,
      List.elem_eq_mem, hMakeMem, hArtistMem, hMake, hArtist,
      notInSection_raw_none v hib]

/-- C10 counterexample: the claim says a non-mapping section is
silently skipped, contributing nothing, while well-formed sections are
still processed normally.  With EXIF bound to the raw int `5` and a
well-formed `Custom` section holding `Make` and both GPS fields (and a
store with `Model` and `Location` history), `get_suggestions` returns
the empty map: the camera branch's membership test on the int raises
`TypeError` and the swallowed exception discards the `Location` and
`Model` contextual entries that the same record without the invalid
section does produce. -/
theorem c10_counterexample :
    get_suggestions [⟨"Location", "Paris", 2, 1⟩, ⟨"Model", "EOS", 2, 1⟩]
      [("EXIF", SectionVal.raw (PValue.pint 5)),
       ("Custom", SectionVal.map [("Make", PValue.pstr "Canon"),
         ("GPSLatitude", PValue.pstr "1"),
         ("GPSLongitude", PValue.pstr "2")])] = [] ∧
    List.lookup "Location"
      (get_suggestions [⟨"Location", "Paris", 2, 1⟩, ⟨"Model", "EOS", 2, 1⟩]
        [("Custom", SectionVal.map [("Make", PValue.pstr "Canon"),
          ("GPSLatitude", PValue.pstr "1"),
          ("GPSLongitude", PValue.pstr "2")])]) = some [⟨"Paris", 2, 1⟩] := by
  decide

/-- C10 (amended): `learn_from_metadata` and `get_suggestions` are
total (never raise); for learning, a non-mapping section is fully
inert — the call result, final store state, call trace, recorded
fields and pattern tags are those of the record with non-mapping
sections removed; the per-field half of `get_suggestions` likewise
ignores non-mapping sections; but a non-mapping EXIF section value is
not inert for contextual suggestions: when it is an int or a bool and
a `Make` or `Artist` trigger is present, the membership test raises a
`TypeError` that is swallowed and the whole contextual map — entries
from well-formed sections included — is dropped, so `get_suggestions`
degrades to the per-field map alone. -/
theorem c10_invalid_sections (db : List MLRow) :
    (∀ (σ : Type) (rv : σ → String → String → σ × Bool) (m : MetaRecord)
      (s0 : σ),
      learn_from_metadata rv m s0 =
        learn_from_metadata rv (filterMapped m) s0) ∧
    (∀ m, recordedFields m = recordedFields (filterMapped m)) ∧
    (∀ m, learnedTags m = learnedTags (filterMapped m)) ∧
    (∀ m, per_field_suggestions db m =
      per_field_suggestions db (filterMapped m)) ∧
    (∀ m v, List.lookup "EXIF" m = some (SectionVal.raw v) →
      isIntOrBool v = true →
      (hasTruthyField m "Make" || hasTruthyField m "Artist") = true →
      get_suggestions db m = per_field_suggestions db m) := by
  refine ⟨?_, ?_, ?_, ?_, ?_⟩
  · intro σ rv m s0
    unfold learn_from_metadata
    rw [fold_skip_raw (fun acc fields => List.foldl (learnStep rv) acc fields)]
  · intro m
    unfold recordedFields
    rw [flatMap_skip_raw (fun fields =>
      (fields.filter learnGuard).map (fun fv => (fv.1, pyStr fv.2)))]
  · intro m
    unfold learnedTags
    rw [flatMap_skip_raw (fun fields =>
      (fields.filter learnGuard).flatMap
        (fun fv => (update_field_patterns fv.2).map (fun t => (fv.1, t))))]
  · intro m
    unfold per_field_suggestions
    rw [fold_skip_raw (fun acc fields => List.foldl (fun acc fv =>
      if truthy fv.2 && !(stripStr (pyStr fv.2) == "") then
        let s := get_field_suggestions db fv.1 5
        if s.isEmpty then acc else dictInsert fv.1 s acc
      else acc) acc fields)]
  · intro m v hexv hib htrig
    rw [get_suggestions, contextual_raises db m v hexv hib htrig]
    rfl

/-- Witness for `c10_invalid_sections`: the raise case applied at the
counterexample's record. -/
theorem c10_invalid_sections_witness :
    List.lookup "EXIF"
      [("EXIF", SectionVal.raw (PValue.pint 5)),
       ("Custom", SectionVal.map [("Make", PValue.pstr "Canon")])] =
      some (SectionVal.raw (PValue.pint 5)) ∧
    get_suggestions [⟨"Model", "EOS", 2, 1⟩]
      [("EXIF", SectionVal.raw (PValue.pint 5)),
       ("Custom", SectionVal.map [("Make", PValue.pstr "Canon")])] =
      per_field_suggestions [⟨"Model", "EOS", 2, 1⟩]
        [("EXIF", SectionVal.raw (PValue.pint 5)),
         ("Custom", SectionVal.map [("Make", PValue.pstr "Canon")])] :=
  ⟨rfl, (c10_invalid_sections [⟨"Model", "EOS", 2, 1⟩]).2.2.2.2
    [("EXIF", SectionVal.raw (PValue.pint 5)),
     ("Custom", SectionVal.map [("Make", PValue.pstr "Canon")])]
    (PValue.pint 5) rfl rfl (by decide)⟩

/-- Every `digitChar` output is an ASCII digit. -/
theorem digitChar_isDigit (d : Nat) : (digitChar d).isDigit = true := by
  unfold digitChar
  split <;> decide

/-- `digitChar` inverts to its argument for single digits. -/
theorem digitChar_toNat (d : Nat) (h : d < 10) :
    (digitChar d).toNat = 48 + d := by
  interval_cases d <;> rfl

/-- `digitsToNat` peels the least significant digit. -/
theorem digitsToNat_append (xs : List Char) (c : Char) :
    digitsToNat (xs ++ [c]) = 10 * digitsToNat xs + (c.toNat - 48) := by
  unfold digitsToNat
  rw [List.foldl_append]
  rfl

/-- With enough fuel, the decimal rendering inverts, consists of
digits, and is non-empty. -/
theorem natDigitsFuel_spec : ∀ fuel n, n < fuel →
    digitsToNat (natDigitsFuel fuel n) = n ∧
    (natDigitsFuel fuel n).all Char.isDigit = true ∧
    natDigitsFuel fuel n ≠ [] := by
  intro fuel
  induction fuel with
  | zero => intro n h; omega
  | succ f ih =>
    intro n h
    rw [natDigitsFuel]
    by_cases h10 : n < 10
    · rw [if_pos h10]
      refine ⟨?_, ?_, by simp⟩
      · show digitsToNat ([] ++ [digitChar n]) = n
        rw [digitsToNat_append, digitChar_toNat n h10]
        simp [digitsToNat]
      · simp [digitChar_isDigit]
    · rw [if_neg h10]
      have hrec : n / 10 < f := by omega
      obtain ⟨h1, h2, h3⟩ := ih (n / 10) hrec
      refine ⟨?_, ?_, by simp⟩
      · rw [digitsToNat_append, h1, digitChar_toNat (n % 10) (by omega)]
        omega
      · rw [List.all_append, h2]
        simp [digitChar_isDigit]

/-- The decimal rendering of a natural number inverts, consists of
digits, and is non-empty. -/
theorem natDigits_spec (n : Nat) :
    digitsToNat (natDigits n) = n ∧
    (natDigits n).all Char.isDigit = true ∧ natDigits n ≠ [] :=
  natDigitsFuel_spec (n + 1) n (by omega)

/-- A run of digits followed by a non-digit (or nothing) spans
exactly. -/
theorem span_digits (xs ys : List Char) (hx : xs.all Char.isDigit = true)
    (hy : headNotDigit ys = true) :
    (xs ++ ys).span Char.isDigit = (xs, ys) := by
  rw [List.span_eq_take_drop]
  induction xs with
  | nil =>
    simp only [List.nil_append]
    cases ys with
    | nil => simp
    | cons c cs =>
      rw [headNotDigit] at hy
      simp only [Bool.not_eq_true'] at hy
      simp [List.takeWhile_cons, List.dropWhile_cons, hy]
  | cons x xs ih =>
    rw [List.all_cons] at hx
    obtain ⟨hx1, hx2⟩ := (Bool.and_eq_true _ _).mp hx
    have := ih hx2
    have t1 : List.takeWhile Char.isDigit (xs ++ ys) = xs :=
      congrArg Prod.fst this
    have t2 : List.dropWhile Char.isDigit (xs ++ ys) = ys :=
      congrArg Prod.snd this
    simp [List.cons_append, List.takeWhile_cons, List.dropWhile_cons,
      hx1, t1, t2]

/-- A digit is not the minus sign. -/
theorem digit_ne_minus (c : Char) (h : c.isDigit = true) : ¬(c = minusC) := by
  intro hc
  rw [hc] at h
  simp [minusC, Char.isDigit] at h

/-- For a positive number the leading decimal digit is not zero. -/
theorem natDigitsFuel_head_ne_zero : ∀ fuel n, n < fuel → 1 ≤ n →
    ∀ c cs, natDigitsFuel fuel n = c :: cs → ¬(c = '0') := by
  intro fuel
  induction fuel with
  | zero => intro n h; omega
  | succ f ih =>
    intro n h h1 c cs hcs
    rw [natDigitsFuel] at hcs
    by_cases h10 : n < 10
    · rw [if_pos h10] at hcs
      injection hcs with hc _
      subst hc
      intro hc0
      have ht := digitChar_toNat n (by omega)
      rw [hc0] at ht
      have h48 : ('0' : Char).toNat = 48 := rfl
      omega
    · rw [if_neg h10] at hcs
      have hrec : n / 10 < f := by omega
      obtain ⟨_, _, hne⟩ := natDigitsFuel_spec f (n / 10) hrec
      rcases hh : natDigitsFuel f (n / 10) with _ | ⟨c2, cs2⟩
      · exact absurd hh hne
      · rw [hh, List.cons_append] at hcs
        injection hcs with hc _
        subst hc
        exact ih (n / 10) hrec (by omega) _ _ hh

/-- `parseNatTok` inverts the decimal rendering of a natural number
when the remainder does not start with a digit: the rendering never
has a superfluous leading zero, so it is a valid JSON integer
token. -/
theorem parseNatTok_natDigits (m : Nat) (rest : List Char)
    (hrest : headNotDigit rest = true) :
    parseNatTok (natDigits m ++ rest) = some (m, rest) := by
  obtain ⟨h1, h2, h3⟩ := natDigits_spec m
  by_cases hm : m = 0
  · subst hm
    have h0 : natDigits 0 = ['0'] := rfl
    rw [h0, List.singleton_append, parseNatTok, if_pos rfl]
  · rcases hd : natDigits m with _ | ⟨c, cs⟩
    · exact absurd hd h3
    · rw [hd, List.all_cons] at h2
      obtain ⟨hcd, hcs⟩ := (Bool.and_eq_true _ _).mp h2
      have hc0 : ¬(c = '0') :=
        natDigitsFuel_head_ne_zero (m + 1) m (by omega) (by omega) c cs hd
      rw [hd] at h1
      rw [List.cons_append, parseNatTok, if_neg hc0, if_pos hcd]
      have hsp : (cs ++ rest).span Char.isDigit = (cs, rest) :=
        span_digits cs rest hcs hrest
      simp only [hsp, h1]

/-- `parseNum` inverts the decimal rendering of an integer when the
remainder does not start with a digit. -/
theorem parseNum_intChars (n : Int) (rest : List Char)
    (hrest : headNotDigit rest = true) :
    parseNum (intChars n ++ rest) = some (.num n, rest) := by
  rw [intChars]
  by_cases hn : n < 0
  · rw [if_pos hn, List.cons_append, parseNum, if_pos rfl,
      parseNatTok_natDigits n.natAbs rest hrest]
    have hv : -((n.natAbs : Nat) : Int) = n := by omega
    simp only [Option.map_some', hv]
  · rw [if_neg hn]
    obtain ⟨h1, h2, h3⟩ := natDigits_spec n.toNat
    rcases hd : natDigits n.toNat with _ | ⟨c, cs⟩
    · exact absurd hd h3
    · rw [hd, List.all_cons] at h2
      have hcd : c.isDigit = true := ((Bool.and_eq_true _ _).mp h2).1
      rw [List.cons_append, parseNum, if_neg (digit_ne_minus c hcd),
        ← List.cons_append, ← hd, parseNatTok_natDigits n.toNat rest hrest]
      have hv : ((n.toNat : Nat) : Int) = n := by omega
      simp only [Option.map_some', hv]

/-- `parseStrC` inverts the string-body escaping on bodies free of
control characters. -/
theorem parseStrC_escBody (cs rest : List Char)
    (hok : cs.all (fun c => 32 ≤ c.toNat) = true) :
    parseStrC (escBody cs ++ quoteC :: rest) = some (cs, rest) := by
  induction cs with
  | nil =>
    rw [escBody, List.flatMap_nil, List.nil_append, parseStrC.eq_def]
    simp
  | cons c cs' ih =>
    rw [List.all_cons] at hok
    obtain ⟨hc32, hok2⟩ := (Bool.and_eq_true _ _).mp hok
    have ih2 := ih hok2
    rw [escBody] at ih2
    rw [escBody, List.flatMap_cons]
    by_cases hc : c = quoteC ∨ c = backC
    · rw [escChar, if_pos hc, List.cons_append, List.cons_append,
        parseStrC.eq_def]
      have hbq : ¬(backC = quoteC) := by decide
      rcases hc with hc | hc <;> subst hc <;>
        simp [hbq, escMap, ih2]
    · push_neg at hc
      rw [escChar, if_neg (not_or.mpr hc), List.cons_append,
        parseStrC.eq_def]
      have hlt : ¬(c.toNat < 32) := by
        have := of_decide_eq_true hc32
        omega
      simp [hc.1, hc.2, hlt, ih2]

/-- A digit is none of the characters the parser dispatches on. -/
theorem digit_facts (c : Char) (h : c.isDigit = true) :
    wsC c = false ∧ c ≠ 'n' ∧ c ≠ 't' ∧ c ≠ 'f' ∧ c ≠ quoteC ∧
    c ≠ '[' ∧ c ≠ lbraceC ∧ c ≠ ']' := by
  refine ⟨?_, ?_, ?_, ?_, ?_, ?_, ?_, ?_⟩
  · by_contra hw
    rw [Bool.not_eq_false] at hw
    rw [wsC] at hw
    rcases (by simpa using hw :
        ((c = ' ' ∨ c = '\t') ∨ c = '\n') ∨ c = '\r') with
      ((h1 | h1) | h1) | h1 <;>
      (rw [h1] at h; exact absurd h (by decide))
  all_goals intro hc; rw [hc] at h; exact absurd h (by decide)

/-- Skipping whitespace does nothing on a non-whitespace head. -/
theorem skipWs_cons_nws (c : Char) (cs : List Char) (h : wsC c = false) :
    skipWs (c :: cs) = c :: cs := by
  simp [skipWs, List.dropWhile_cons, h]

/-- Skipping whitespace consumes a leading space. -/
theorem skipWs_space (l : List Char) : skipWs (' ' :: l) = skipWs l := by
  simp [skipWs, List.dropWhile_cons, wsC]

/-- The value parser ignores a leading space. -/
theorem parseVal_ws (fuel : Nat) (l : List Char) :
    parseVal fuel (' ' :: l) = parseVal fuel l := by
  cases fuel with
  | zero => rfl
  | succ f =>
    simp only [parseVal]
    rw [skipWs_space]

/-- The element parser ignores a leading space. -/
theorem parseElems_ws (fuel : Nat) (l : List Char) :
    parseElems fuel (' ' :: l) = parseElems fuel l := by
  cases fuel with
  | zero => rfl
  | succ f =>
    simp only [parseElems]
    rw [parseVal_ws]

/-- The member parser ignores a leading space. -/
theorem parseMembers_ws (fuel : Nat) (l : List Char) :
    parseMembers fuel (' ' :: l) = parseMembers fuel l := by
  cases fuel with
  | zero => rfl
  | succ f =>
    simp only [parseMembers]
    rw [skipWs_space]

/-- Every serialized value starts with a non-whitespace character
that is not a closing bracket. -/
theorem dumpsC_cons (v : J) :
    ∃ c cs, dumpsC v = c :: cs ∧ wsC c = false ∧ c ≠ ']' := by
  cases v with
  | null => exact ⟨'n', _, rfl, by decide, by decide⟩
  | jbool b => cases b with
    | true => exact ⟨'t', _, rfl, by decide, by decide⟩
    | false => exact ⟨'f', _, rfl, by decide, by decide⟩
  | num n =>
    by_cases hn : n < 0
    · refine ⟨minusC, natDigits n.natAbs, ?_, by decide, by decide⟩
      rw [dumpsC, intChars, if_pos hn]
    · obtain ⟨_, he2, he3⟩ := natDigits_spec n.toNat
      rcases h : natDigits n.toNat with _ | ⟨c, cs⟩
      · exact absurd h he3
      · have hcd : c.isDigit = true := by
          rw [h, List.all_cons] at he2
          exact ((Bool.and_eq_true _ _).mp he2).1
        obtain ⟨hw, _, _, _, _, _, _, hbr⟩ := digit_facts c hcd
        refine ⟨c, cs, ?_, hw, hbr⟩
        rw [dumpsC, intChars, if_neg hn, h]
  | jstr s => exact ⟨quoteC, _, rfl, by decide, by decide⟩
  | arr xs => cases xs with
    | nil => exact ⟨'[', _, rfl, by decide, by decide⟩
    | cons x xs' => exact ⟨'[', _, rfl, by decide, by decide⟩
  | obj ms =>
    rcases ms with _ | ⟨⟨k, v⟩, ms'⟩
    · exact ⟨lbraceC, _, rfl, by decide, by decide⟩
    · exact ⟨lbraceC, _, rfl, by decide, by decide⟩

/-- Parser fuel is positive for every value. -/
theorem jfuel_pos (v : J) : 1 ≤ jfuel v := by
  cases v <;> simp [jfuel]

/-- The remainder after an array element never starts with a digit. -/
theorem headNotDigit_arrTail (xs : List J) (rest : List Char) :
    headNotDigit (dumpsArrTail xs ++ ']' :: rest) = true := by
  cases xs with
  | nil => rfl
  | cons y ys => rfl

/-- The remainder after an object value never starts with a digit. -/
theorem headNotDigit_memTail (ms : List (String × J)) (rest : List Char) :
    headNotDigit (dumpsMemTail ms ++ rbraceC :: rest) = true := by
  rcases ms with _ | ⟨⟨k, v⟩, ms'⟩
  · rfl
  · rfl

mutual

/-- Serialization length (plus one) bounds the fuel a value needs. -/
theorem jfuel_le : (v : J) → jfuel v ≤ (dumpsC v).length + 1
  | .null => by simp [jfuel, dumpsC]
  | .jbool b => by cases b <;> simp [jfuel, dumpsC]
  | .num n => by simp [jfuel]
  | .jstr s => by simp [jfuel]
  | .arr [] => by simp [jfuel, efuel, dumpsC]
  | .arr (x :: xs) => by
    have h1 := jfuel_le x
    have h2 := efuel_le xs
    simp only [jfuel, efuel, dumpsC, List.length_cons, List.length_append]
    omega
  | .obj [] => by simp [jfuel, mfuel, dumpsC]
  | .obj ((k, v) :: ms) => by
    have h1 := jfuel_le v
    have h2 := mfuel_le ms
    simp only [jfuel, mfuel, dumpsC, List.length_cons, List.length_append]
    omega

/-- Serialization length bounds the fuel remaining array elements
need. -/
theorem efuel_le : (xs : List J) → efuel xs ≤ (dumpsArrTail xs).length
  | [] => by simp [efuel, dumpsArrTail]
  | y :: ys => by
    have h1 := jfuel_le y
    have h2 := efuel_le ys
    simp only [efuel, dumpsArrTail, List.length_cons, List.length_append]
    omega

/-- Serialization length bounds the fuel remaining object members
need. -/
theorem mfuel_le : (ms : List (String × J)) →
    mfuel ms ≤ (dumpsMemTail ms).length
  | [] => by simp [mfuel, dumpsMemTail]
  | (k, v) :: ms' => by
    have h1 := jfuel_le v
    have h2 := mfuel_le ms'
    simp only [mfuel, dumpsMemTail, List.length_cons, List.length_append]
    omega

end

/-- With enough fuel, the parser inverts the serializer on payloads
whose strings are free of control characters: one value (with a
remainder that cannot extend a number token), the element list of an
array, and the member list of an object. -/
theorem parse_dumps_fuel : ∀ fuel : Nat,
    (∀ (v : J) (rest : List Char), jfuel v ≤ fuel → numOkB v rest = true →
      jOk v = true →
      parseVal fuel (dumpsC v ++ rest) = some (v, rest)) ∧
    (∀ (x : J) (xs : List J) (rest : List Char),
      1 + jfuel x + efuel xs ≤ fuel → jOk x = true → eOk xs = true →
      parseElems fuel (dumpsC x ++ (dumpsArrTail xs ++ ']' :: rest)) =
        some (x :: xs, rest)) ∧
    (∀ (k : String) (v : J) (ms : List (String × J)) (rest : List Char),
      1 + jfuel v + mfuel ms ≤ fuel → strOkChars k = true →
      jOk v = true → mOk ms = true →
      parseMembers fuel (escStr k ++ ':' :: ' ' ::
        (dumpsC v ++ (dumpsMemTail ms ++ rbraceC :: rest))) =
        some ((k, v) :: ms, rest)) := by
  intro fuel
  induction fuel with
  | zero =>
    refine ⟨?_, ?_, ?_⟩
    · intro v rest hle _ _
      have := jfuel_pos v
      omega
    · intro x xs rest hle _ _
      omega
    · intro k v ms rest hle _ _ _
      omega
  | succ f ih =>
    obtain ⟨ih1, ih2, ih3⟩ := ih
    refine ⟨?_, ?_, ?_⟩
    · intro v rest hle hok hjok
      cases v with
      | null => rfl
      | jbool b => cases b <;> rfl
      | num n =>
        have hnd : headNotDigit rest = true := hok
        by_cases hn : n < 0
        · rw [show dumpsC (.num n) = minusC :: natDigits n.natAbs from by
            rw [dumpsC, intChars, if_pos hn]]
          rw [List.cons_append]
          simp only [parseVal]
          rw [skipWs_cons_nws _ _ (by decide)]
          dsimp only
          rw [if_neg (by decide), if_neg (by decide), if_neg (by decide),
            if_neg (by decide), if_neg (by decide), if_neg (by decide),
            if_pos (by decide)]
          rw [show minusC :: (natDigits n.natAbs ++ rest) =
            intChars n ++ rest from by
            rw [intChars, if_pos hn, List.cons_append]]
          rw [parseNum_intChars n rest hnd]
        · obtain ⟨_, he2, he3⟩ := natDigits_spec n.toNat
          rcases h : natDigits n.toNat with _ | ⟨c, cs⟩
          · exact absurd h he3
          · have hcd : c.isDigit = true := by
              rw [h, List.all_cons] at he2
              exact ((Bool.and_eq_true _ _).mp he2).1
            obtain ⟨hw, h1, h2, h3, h4, h5, h6, _⟩ := digit_facts c hcd
            rw [show dumpsC (.num n) = c :: cs from by
              rw [dumpsC, intChars, if_neg hn, h]]
            rw [List.cons_append]
            simp only [parseVal]
            rw [skipWs_cons_nws _ _ hw]
            dsimp only
            rw [if_neg h1, if_neg h2, if_neg h3, if_neg h4, if_neg h5,
              if_neg h6, if_pos (by simp [hcd])]
            rw [show c :: (cs ++ rest) = intChars n ++ rest from by
              rw [intChars, if_neg hn, h, List.cons_append]]
            rw [parseNum_intChars n rest hnd]
      | jstr s =>
        have hsok : s.data.all (fun c => 32 ≤ c.toNat) = true := hjok
        simp only [dumpsC, escStr, List.cons_append, List.append_assoc]
        simp only [parseVal]
        rw [skipWs_cons_nws _ _ (by decide)]
        dsimp only
        rw [if_neg (by decide), if_neg (by decide), if_neg (by decide),
          if_pos rfl]
        rw [List.nil_append, parseStrC_escBody _ _ hsok]
        rfl
      | arr xs =>
        cases xs with
        | nil => rfl
        | cons x xs' =>
          have hjok2 : (jOk x && eOk xs') = true := hjok
          obtain ⟨hox, hoxs⟩ := (Bool.and_eq_true _ _).mp hjok2
          have hb : 1 + jfuel x + efuel xs' ≤ f := by
            simp only [jfuel, efuel] at hle
            omega
          obtain ⟨c, cs, he, hw, hbr⟩ := dumpsC_cons x
          simp only [dumpsC, List.cons_append, List.append_assoc]
          simp only [parseVal]
          rw [skipWs_cons_nws _ _ (by decide)]
          dsimp only
          rw [if_neg (by decide), if_neg (by decide), if_neg (by decide),
            if_neg (by decide), if_pos rfl]
          rw [he, List.cons_append, skipWs_cons_nws _ _ hw]
          dsimp only
          rw [if_neg hbr, ← List.cons_append, ← he]
          rw [List.nil_append, ih2 x xs' rest hb hox hoxs]
          rfl
      | obj ms =>
        rcases ms with _ | ⟨⟨k, v⟩, ms'⟩
        · rfl
        · have hjok2 : ((strOkChars k && jOk v) && mOk ms') = true := hjok
          obtain ⟨hkv, homs⟩ := (Bool.and_eq_true _ _).mp hjok2
          obtain ⟨hkk, hov⟩ := (Bool.and_eq_true _ _).mp hkv
          have hb : 1 + jfuel v + mfuel ms' ≤ f := by
            simp only [jfuel, mfuel] at hle
            omega
          simp only [dumpsC, escStr, List.cons_append, List.append_assoc]
          simp only [parseVal]
          rw [skipWs_cons_nws _ _ (by decide)]
          dsimp only
          rw [if_neg (by decide), if_neg (by decide), if_neg (by decide),
            if_neg (by decide), if_neg (by decide), if_pos rfl]
          rw [skipWs_cons_nws _ _ (by decide)]
          dsimp only
          rw [if_neg (by decide)]
          have harg := ih3 k v ms' rest hb hkk hov homs
          rw [escStr] at harg
          simp only [List.cons_append, List.append_assoc,
            List.singleton_append, List.nil_append] at harg ⊢
          rw [harg]
          rfl
    · intro x xs rest hle hox hoxs
      have hjx : jfuel x ≤ f := by omega
      have hnum : numOkB x (dumpsArrTail xs ++ ']' :: rest) = true := by
        cases x <;> simp [numOkB, headNotDigit_arrTail]
      simp only [parseElems]
      rw [ih1 x _ hjx hnum hox]
      simp only [Option.bind_eq_bind, Option.some_bind]
      cases xs with
      | nil => rfl
      | cons y ys =>
        have hjok2 : (jOk y && eOk ys) = true := hoxs
        obtain ⟨hoy, hoys⟩ := (Bool.and_eq_true _ _).mp hjok2
        have hpx := jfuel_pos x
        have hb : 1 + jfuel y + efuel ys ≤ f := by
          simp only [efuel] at hle
          omega
        simp only [dumpsArrTail, List.cons_append, List.append_assoc]
        rw [skipWs_cons_nws _ _ (by decide)]
        dsimp only
        rw [if_pos rfl]
        rw [parseElems_ws, ih2 y ys rest hb hoy hoys]
        rfl
    · intro k v ms rest hle hkk hov homs
      have hksok : k.data.all (fun c => 32 ≤ c.toNat) = true := hkk
      have hjv : jfuel v ≤ f := by omega
      have hnum : numOkB v (dumpsMemTail ms ++ rbraceC :: rest) = true := by
        cases v <;> simp [numOkB, headNotDigit_memTail]
      simp only [parseMembers]
      rw [escStr]
      simp only [List.cons_append, List.append_assoc, List.singleton_append]
      rw [skipWs_cons_nws quoteC _ (by decide)]
      dsimp only
      rw [if_pos rfl]
      rw [parseStrC_escBody _ _ hksok]
      simp only [Option.bind_eq_bind, Option.some_bind]
      rw [List.nil_append, skipWs_cons_nws ':' _ (by decide)]
      dsimp only
      rw [if_pos rfl]
      rw [parseVal_ws, ih1 v _ hjv hnum hov]
      simp only [Option.bind_eq_bind, Option.some_bind]
      rcases ms with _ | ⟨⟨k2, v2⟩, ms'⟩
      · rfl
      · have hjok2 : ((strOkChars k2 && jOk v2) && mOk ms') = true := homs
        obtain ⟨hkv2, homs2⟩ := (Bool.and_eq_true _ _).mp hjok2
        obtain ⟨hkk2, hov2⟩ := (Bool.and_eq_true _ _).mp hkv2
        have hpv := jfuel_pos v
        have hb : 1 + jfuel v2 + mfuel ms' ≤ f := by
          simp only [mfuel] at hle
          omega
        simp only [dumpsMemTail, List.cons_append, List.append_assoc]
        rw [skipWs_cons_nws _ _ (by decide)]
        dsimp only
        rw [if_pos rfl]
        rw [parseMembers_ws, ih3 k2 v2 ms' rest hb hkk2 hov2 homs2]
        rfl

/-- `json.loads` inverts `json.dumps` on every payload whose strings
are free of control characters. -/
theorem loads_dumps (v : J) (hjok : jOk v = true) :
    loads (dumps v) = some v := by
  rw [loads, dumps]
  have hfuel : jfuel v ≤ (String.mk (dumpsC v)).length + 1 := jfuel_le v
  have hok : numOkB v [] = true := by cases v <;> rfl
  have h := (parse_dumps_fuel ((String.mk (dumpsC v)).length + 1)).1 v []
    hfuel hok hjok
  rw [List.append_nil] at h
  rw [show (String.mk (dumpsC v)).data = dumpsC v from rfl, h]
  rfl

/-- Skipping whitespace keeps a suffix of the input. -/
theorem mem_skipWs (c : Char) (cs : List Char) (h : c ∈ skipWs cs) :
    c ∈ cs := by
  induction cs with
  | nil => exact absurd h (by simp [skipWs])
  | cons x xs ih =>
    rw [skipWs, List.dropWhile_cons] at h
    by_cases hx : wsC x = true
    · rw [if_pos hx] at h
      exact List.mem_cons_of_mem x (ih h)
    · rw [if_neg hx] at h
      exact h

/-- A cons whose whitespace-skip is empty starts with whitespace. -/
theorem wsC_head_of_empty (c : Char) (r : List Char)
    (h : (skipWs (c :: r)).isEmpty = true) : wsC c = true := by
  by_cases hw : wsC c = true
  · exact hw
  · rw [skipWs, List.dropWhile_cons, if_neg hw] at h
    exact absurd h (by simp)

/-- On an all-whitespace remainder neither the fraction nor the
exponent group of the number grammar participates. -/
theorem fracExp_ws (cs : List Char) (h : (skipWs cs).isEmpty = true) :
    expPartTail (fracPartTail cs) = cs := by
  have hfr : fracPartTail cs = cs := by
    rcases cs with _ | ⟨c, r⟩
    · rfl
    · have hw := wsC_head_of_empty c r h
      rcases r with _ | ⟨d, r2⟩
      · rfl
      · have hdot : ¬(c = '.') := by
          intro hc
          rw [hc] at hw
          exact absurd hw (by decide)
        rw [fracPartTail, if_neg hdot]
  rw [hfr]
  rcases cs with _ | ⟨c, r⟩
  · rfl
  · have hw := wsC_head_of_empty c r h
    rcases r with _ | ⟨d, r2⟩
    · rfl
    · have he : ¬(c = 'e' ∨ c = 'E') := by
        rintro (hc | hc) <;> (rw [hc] at hw; exact absurd hw (by decide))
      simp [expPartTail, he]

/-- A successful string-body parse is accepted by the string
recognizer, with the same remainder: the parser's escapes and raw
characters are a subset of the recognizer's. -/
theorem parseStrC_strTail : ∀ (n : Nat) (cs : List Char),
    cs.length ≤ n → ∀ body rest, parseStrC cs = some (body, rest) →
    strTail cs = some rest := by
  intro n
  induction n with
  | zero =>
    intro cs hle body rest h
    rcases cs with _ | ⟨c, r⟩
    · rw [parseStrC.eq_def] at h
      exact Option.noConfusion h
    · simp at hle
  | succ f ih =>
    intro cs hle body rest h
    rcases cs with _ | ⟨c, r⟩
    · rw [parseStrC.eq_def] at h
      exact Option.noConfusion h
    · rw [parseStrC.eq_def] at h
      dsimp only at h
      rw [strTail.eq_def]
      dsimp only
      simp only [List.length_cons] at hle
      by_cases hq : c = quoteC
      · rw [if_pos hq] at h ⊢
        injection h with h2
        injection h2 with _ hr
        rw [hr]
      · rw [if_neg hq] at h ⊢
        by_cases hbk : c = backC
        · rw [if_pos hbk] at h ⊢
          rcases r with _ | ⟨e, r2⟩
          · exact Option.noConfusion h
          · dsimp only at h ⊢
            simp only [List.length_cons] at hle
            rcases he : escMap e with _ | dch
            · rw [he] at h
              exact Option.noConfusion h
            · rw [he] at h
              obtain ⟨p, hp, hfp⟩ := Option.map_eq_some'.mp h
              have hrest : p.2 = rest := congrArg Prod.snd hfp
              have heu : ¬(e = 'u') := by
                intro hh
                rw [hh] at he
                rw [show escMap 'u' = none from rfl] at he
                exact Option.noConfusion he
              rw [if_neg heu]
              dsimp only
              rw [ih r2 (by omega) p.1 p.2 hp, hrest]
        · rw [if_neg hbk] at h ⊢
          by_cases h32 : c.toNat < 32
          · rw [if_pos h32] at h
            exact Option.noConfusion h
          · rw [if_neg h32] at h ⊢
            obtain ⟨p, hp, hfp⟩ := Option.map_eq_some'.mp h
            have hrest : p.2 = rest := congrArg Prod.snd hfp
            rw [ih r (by omega) p.1 p.2 hp, hrest]

/-- A successful unsigned-integer-token parse is accepted by the
integer-part recognizer with the same remainder. -/
theorem parseNatTok_intPartTail (cs : List Char) (m : Nat)
    (rest : List Char) (h : parseNatTok cs = some (m, rest)) :
    intPartTail cs = some rest := by
  rcases cs with _ | ⟨c, r⟩
  · rw [parseNatTok] at h
    exact Option.noConfusion h
  · rw [parseNatTok] at h
    rw [intPartTail]
    by_cases h0 : c = '0'
    · rw [if_pos h0] at h ⊢
      injection h with h2
      injection h2 with _ hr
      rw [hr]
    · rw [if_neg h0] at h ⊢
      by_cases hd : c.isDigit
      · rw [if_pos hd] at h ⊢
        simp only [List.span_eq_take_drop] at h
        injection h with h2
        injection h2 with _ hr
        rw [hr]
      · rw [if_neg hd] at h
        exact Option.noConfusion h

/-- A digit is neither of the capitals starting the non-standard
constants. -/
theorem digit_facts2 (c : Char) (h : c.isDigit = true) :
    ¬(c = 'N') ∧ ¬(c = 'I') := by
  constructor <;> (intro hc; rw [hc] at h; exact absurd h (by decide))

/-- On input free of the container-opening characters, a successful
value parse whose remainder is all whitespace is accepted by the
scalar recognizer with the same remainder. -/
theorem parseVal_scalarTail (fuel : Nat) (cs : List Char) (v : J)
    (rest : List Char)
    (hb : ∀ c ∈ cs, ¬(c = '[' ∨ c = lbraceC))
    (hws : (skipWs rest).isEmpty = true)
    (h : parseVal fuel cs = some (v, rest)) :
    scalarTail (skipWs cs) = some rest := by
  rcases fuel with _ | f
  · rw [parseVal] at h
    exact Option.noConfusion h
  · rw [parseVal] at h
    rcases hsk : skipWs cs with _ | ⟨c, r⟩
    · rw [hsk] at h
      exact Option.noConfusion h
    · rw [hsk] at h
      dsimp only at h
      rw [scalarTail]
      have hcin : c ∈ cs :=
        mem_skipWs c cs (by rw [hsk]; exact List.mem_cons_self c r)
      obtain ⟨hbr1, hbr2⟩ := not_or.mp (hb c hcin)
      by_cases hn : c = 'n'
      · rw [if_pos hn] at h ⊢
        obtain ⟨rr, hlit, hfp⟩ := Option.map_eq_some'.mp h
        have hrest : rr = rest := congrArg Prod.snd hfp
        rw [hlit, hrest]
      · rw [if_neg hn] at h ⊢
        by_cases ht : c = 't'
        · rw [if_pos ht] at h ⊢
          obtain ⟨rr, hlit, hfp⟩ := Option.map_eq_some'.mp h
          have hrest : rr = rest := congrArg Prod.snd hfp
          rw [hlit, hrest]
        · rw [if_neg ht] at h ⊢
          by_cases hf : c = 'f'
          · rw [if_pos hf] at h ⊢
            obtain ⟨rr, hlit, hfp⟩ := Option.map_eq_some'.mp h
            have hrest : rr = rest := congrArg Prod.snd hfp
            rw [hlit, hrest]
          · rw [if_neg hf] at h ⊢
            by_cases hq : c = quoteC
            · rw [if_pos hq] at h ⊢
              obtain ⟨p, hp, hfp⟩ := Option.map_eq_some'.mp h
              have hrest : p.2 = rest := congrArg Prod.snd hfp
              rw [parseStrC_strTail r.length r (by omega) p.1 p.2 hp, hrest]
            · rw [if_neg hq] at h ⊢
              rw [if_neg hbr1, if_neg hbr2] at h
              by_cases hm : c = minusC
              · subst hm
                rw [if_pos (by decide)] at h
                rw [parseNum, if_pos rfl] at h
                obtain ⟨p, hp, hfp⟩ := Option.map_eq_some'.mp h
                have hrest : p.2 = rest := congrArg Prod.snd hfp
                have hint := parseNatTok_intPartTail r p.1 p.2 hp
                rw [if_neg (by decide), if_neg (by decide), if_pos rfl,
                  hint]
                dsimp only
                rw [hrest, fracExp_ws rest hws]
              · by_cases hdig : c.isDigit
                · rw [if_pos (by simp [hm, hdig])] at h
                  rw [parseNum, if_neg hm] at h
                  obtain ⟨p, hp, hfp⟩ := Option.map_eq_some'.mp h
                  have hrest : p.2 = rest := congrArg Prod.snd hfp
                  have hint := parseNatTok_intPartTail (c :: r) p.1 p.2 hp
                  obtain ⟨hN, hI⟩ := digit_facts2 c hdig
                  rw [if_neg hN, if_neg hI, if_neg hm, if_pos hdig]
                  rw [numTokTail, if_neg hm, hint]
                  simp only [Option.map_some']
                  rw [hrest, fracExp_ws rest hws]
                · have hcond : ¬((decide (c = minusC) || c.isDigit) = true) := by
                    simp [hm, hdig]
                  rw [if_neg hcond] at h
                  exact Option.noConfusion h

/-- A bracket-free text rejected by the scalar recognizer is not
parsed by the model `loads` either: the parser accepts a subset of
what `json.loads` accepts, and the recognizer accepts exactly the
bracket-free part of it. -/
theorem loads_none_of_scalar_reject (s : String)
    (hb : bracketFree s = true) (hd : scalarJsonDoc s = false) :
    loads s = none := by
  rcases hl : loads s with _ | v
  · rfl
  · exfalso
    rw [loads] at hl
    rcases hp : parseVal (s.length + 1) s.data with _ | ⟨v2, rest⟩
    · rw [hp] at hl
      exact Option.noConfusion hl
    · rw [hp] at hl
      dsimp only at hl
      by_cases hws : (skipWs rest).isEmpty = true
      · have hmem : ∀ c ∈ s.data, ¬(c = '[' ∨ c = lbraceC) := by
          intro c hc
          have hcc := List.all_eq_true.mp hb c hc
          simp only [Bool.not_eq_true', Bool.or_eq_false_iff,
            decide_eq_false_iff_not] at hcc
          exact not_or.mpr hcc
        have hsc := parseVal_scalarTail (s.length + 1) s.data v2 rest
          hmem hws hp
        rw [scalarJsonDoc, hsc] at hd
        dsimp only at hd
        rw [hws] at hd
        exact Bool.noConfusion hd
      · rw [if_neg hws] at hl
        exact Option.noConfusion hl

/-- Inserting a key makes it found with the inserted value. -/
theorem lookup_dictInsert {α : Type} (k : String) (v : α)
    (l : List (String × α)) :
    List.lookup k (dictInsert k v l) = some v := by
  induction l with
  | nil => simp [dictInsert, List.lookup]
  | cons p ps ih =>
    rw [dictInsert]
    by_cases hp : p.1 = k
    · simp [List.lookup, hp]
    · rw [if_neg hp]
      have hbeq : (k == p.1) = false := by
        rw [beq_eq_false_iff_ne]
        exact fun hh => hp hh.symm
      simp only [List.lookup, hbeq]
      exact ih

/-- C9 counterexample: the claim says reading a key back immediately
after writing returns a value equal to the stored one for every
JSON-serializable payload, booleans and strings included.  A stored
`True` is serialized by `str()` to `"True"`, which is not valid JSON,
so it is returned as the *string* `"True"`; a stored string `"1"`
parses as JSON, so it is returned as the *number* 1. -/
theorem c9_preference_roundtrip_counterexample :
    get_user_preference "k" J.null
      (save_user_preference "k" (J.jbool true) []) = J.jstr "True" ∧
    J.jstr "True" ≠ J.jbool true ∧
    get_user_preference "k" J.null
      (save_user_preference "k" (J.jstr "1") []) = J.num 1 ∧
    J.num 1 ≠ J.jstr "1" := by
  refine ⟨rfl, ?_, rfl, ?_⟩ <;> exact fun h => J.noConfusion h

/-- C9 (amended): writing a payload under a key and reading the key
back yields `readBack` of the payload.  Object, array and integer
payloads (with control-character-free strings) come back as the
payload itself — stored as `json.dumps` text and re-parsed on read;
booleans and `None` come back as their Python string forms, since
the `str()` serialization they get is not JSON; a string payload is
stored verbatim and comes back as the JSON parse of its text when
the model parser, which is sound for `json.loads`, accepts it — the
one-digit string comes back as the number 1 — and verbatim when the
text is free of container brackets and the scalar recognizer, which
accepts exactly the bracket-free documents `json.loads` accepts,
rejects it.  The write overwrites any previous value for the key
(every conjunct holds over every prior table state), and reading a
missing key returns the supplied default. -/
theorem c9_preference_roundtrip_amended (key : String) (d : J)
    (prefs : List (String × String)) :
    (∀ v : J, jOk v = true →
      get_user_preference key d (save_user_preference key v prefs) =
        readBack v) ∧
    (∀ (s : String) (v : J), loads s = some v →
      get_user_preference key d
        (save_user_preference key (.jstr s) prefs) = v) ∧
    (∀ s : String, bracketFree s = true → scalarJsonDoc s = false →
      get_user_preference key d
        (save_user_preference key (.jstr s) prefs) = .jstr s) ∧
    (∀ k2, List.lookup k2 prefs = none →
      get_user_preference k2 d prefs = d) := by
  refine ⟨?_, ?_, ?_, ?_⟩
  · intro v hjok
    rw [save_user_preference, get_user_preference, lookup_dictInsert]
    cases v with
    | arr xs =>
      dsimp only
      rw [show storedText (J.arr xs) = dumps (J.arr xs) from rfl,
        loads_dumps _ hjok]
      rfl
    | obj ms =>
      dsimp only
      rw [show storedText (J.obj ms) = dumps (J.obj ms) from rfl,
        loads_dumps _ hjok]
      rfl
    | num n =>
      dsimp only
      rw [show storedText (J.num n) = dumps (J.num n) from rfl,
        loads_dumps _ hjok]
      rfl
    | jstr s => rfl
    | jbool b => cases b <;> rfl
    | null => rfl
  · intro s v hl
    rw [save_user_preference, get_user_preference, lookup_dictInsert]
    dsimp only
    rw [show storedText (J.jstr s) = s from rfl, hl]
  · intro s hb hd
    rw [save_user_preference, get_user_preference, lookup_dictInsert]
    dsimp only
    rw [show storedText (J.jstr s) = s from rfl,
      loads_none_of_scalar_reject s hb hd]
  · intro k2 h
    rw [get_user_preference, h]

/-- Witness for `c9_preference_roundtrip_amended` at concrete inputs:
an object round-trips, the one-digit string comes back as a number,
a non-JSON string comes back verbatim, and a missing key yields the
default. -/
theorem c9_preference_roundtrip_amended_witness :
    jOk (J.obj [("a", J.num 1)]) = true ∧
    get_user_preference "k" J.null
      (save_user_preference "k" (J.obj [("a", J.num 1)]) []) =
      J.obj [("a", J.num 1)] ∧
    loads "1" = some (J.num 1) ∧
    get_user_preference "k" J.null
      (save_user_preference "k" (J.jstr "1") []) = J.num 1 ∧
    bracketFree "not json" = true ∧
    scalarJsonDoc "not json" = false ∧
    get_user_preference "k" J.null
      (save_user_preference "k" (J.jstr "not json") []) =
      J.jstr "not json" ∧
    get_user_preference "missing" (J.num 7) [] = J.num 7 := by
  have h := c9_preference_roundtrip_amended "k" J.null []
  have h2 := c9_preference_roundtrip_amended "missing" (J.num 7) []
  refine ⟨by decide, h.1 (J.obj [("a", J.num 1)]) (by decide), rfl,
    h.2.1 "1" (J.num 1) rfl, by decide, by decide,
    h.2.2.1 "not json" (by decide) (by decide), h2.2.2.2 "missing" rfl⟩
